import Mathlib

/-!
# Digit-Shift Sort (`src/Digit_Shift_Sort.cpp`)

A shallow embedding of `get_max` and `Digit_Shift_Sort` and a verification of
their specification.

Modelling conventions.

* A `std::vector<int>` is a `List Int`; the 32-bit range of its elements is the
  predicate `IsInt32`, stated as a hypothesis where a theorem needs it.
* `exp` is a `long long`.  The model carries it as an `Int` and reports
  `Fault.overflow` when `exp *= 10` would leave the 64-bit range.
* `/` and `%` of C++ truncate towards zero: `Int.tdiv` and `Int.tmod`.
* Every read `arr[k]` and write `arr[k] = v` is bounds-checked and reports
  `Fault.outOfBounds` when `k` is not an index of the vector.
* `int n = arr.size()` narrows the size to 32 bits: `toInt32`.  The test of
  line 34 and the `for` loop read `n`, never the size; on a vector of more than
  `2 ^ 31 - 1` elements `n` is not the size.
* The outer `while` loop is driven by a fuel counter and reports
  `Fault.outOfFuel` when the counter is used up before the loop condition fails.
  The `for` loop runs over the index list `1, ..., n-1`, and the backward walk
  recurses on `j + 1`, a natural number.
-/

namespace DigitShiftSort

/-! ## Machine-level vocabulary -/

/-- The ways in which a run of the model can fail to deliver a vector. -/
inductive Fault where
  | outOfFuel
  | outOfBounds
  | overflow
  deriving DecidableEq, Repr

/-- Smallest value of a C++ `int`. -/
def INT_MIN : Int := -2147483648

/-- Largest value of a C++ `int`. -/
def INT_MAX : Int := 2147483647

/-- Smallest value of a C++ `long long`. -/
def LLONG_MIN : Int := -9223372036854775808

/-- Largest value of a C++ `long long`. -/
def LLONG_MAX : Int := 9223372036854775807

/-- The value fits a C++ `int`. -/
def IsInt32 (x : Int) : Prop := INT_MIN ≤ x ∧ x ≤ INT_MAX

instance (x : Int) : Decidable (IsInt32 x) := by
  unfold IsInt32; infer_instance

/-! ## `get_max` (lines 12-19) -/

/-- `get_max`: `0` on the empty vector, otherwise `*std::max_element(begin, end)`,
which scans from the first element and replaces the running largest element
whenever it is strictly smaller than the element under the cursor. -/
def get_max (arr : List Int) : Int :=
  match arr with
  | [] => 0
  | first :: rest => rest.foldl (fun largest x => if largest < x then x else largest) first

/-! ## `Digit_Shift_Sort` (lines 30-81) -/

/-- The digit expression `(x / exp) % 10` of lines 58 and 65. -/
def digitAt (exp : Int) (x : Int) : Int := (x.tdiv exp).tmod 10

/-- The backward walk of lines 65-68,
`while (j >= 0 && ((arr[j] / exp) % 10) > current_digit) { arr[j+1] = arr[j]; j--; }`.
The natural-number argument is `j + 1`, so that `0` stands for `j = -1`.
The result is the vector and `j + 1` at loop exit. -/
def shiftLoop (exp : Int) (current_digit : Int) :
    Nat → List Int → Except Fault (List Int × Nat)
  | 0, arr => .ok (arr, 0)
  | j + 1, arr =>
    match arr[j]? with
    | none => .error .outOfBounds
    | some prev =>
      if digitAt exp prev > current_digit then
        if j + 1 < arr.length then
          shiftLoop exp current_digit j (arr.set (j + 1) prev)
        else .error .outOfBounds
      else .ok (arr, j + 1)

/-- The body of the `for` loop, lines 57-74, at index `i`. -/
def insertStep (exp : Int) (arr : List Int) (i : Nat) : Except Fault (List Int) :=
  match arr[i]? with
  | none => .error .outOfBounds
  | some current_num =>
    match shiftLoop exp (digitAt exp current_num) i arr with
    | .error e => .error e
    | .ok (arr', k) =>
      if k < arr'.length then .ok (arr'.set k current_num) else .error .outOfBounds

/-- One digit pass, the loop `for (int i = 1; i < n; ++i)` of lines 56-75. -/
def digitPass (exp : Int) (n : Nat) (arr : List Int) : Except Fault (List Int) :=
  (List.range' 1 (n - 1)).foldlM (insertStep exp) arr

/-- The state at the exit of the outer loop: the vector, the final value of
`exp`, and the number of times the loop body was executed. -/
structure Run (α : Type) where
  arr : List α
  exp : Int
  passes : Nat
  deriving DecidableEq, Repr

/-- The outer loop of lines 51-78, `while (max_val / exp > 0) { pass; exp *= 10; }`.
The counter `passes` records the iterations executed so far. -/
def outerLoop (max_val : Int) (n : Nat) : Nat → Int → Nat → List Int → Except Fault (Run Int)
  | 0, _, _, _ => .error .outOfFuel
  | fuel + 1, exp, passes, arr =>
    if max_val.tdiv exp > 0 then
      match digitPass exp n arr with
      | .error e => .error e
      | .ok arr' =>
        if LLONG_MIN ≤ exp * 10 ∧ exp * 10 ≤ LLONG_MAX then
          outerLoop max_val n fuel (exp * 10) (passes + 1) arr'
        else .error .overflow
    else .ok ⟨arr, exp, passes⟩

/-- The conversion of line 31, `int n = arr.size()`: the low 32 bits of the size
of the vector, read as a two's complement `int`. -/
def toInt32 (size : Nat) : Int :=
  if size % 4294967296 < 2147483648 then ((size % 4294967296 : Nat) : Int)
  else ((size % 4294967296 : Nat) : Int) - 4294967296

/-- The number of leading elements that a run on a vector of the given size
arranges: none on the early return of line 35, otherwise `n`. -/
def coveredLength (size : Nat) : Nat :=
  if toInt32 size ≤ 1 then 0 else (toInt32 size).toNat

/-- `Digit_Shift_Sort` together with its loop statistics.  The test of line 34 and
the bound of the `for` loop read `n`, the size narrowed to an `int` at line 31;
past the test `n` is at least two.  On the early return of line 35 no pass has
run; the statistics then show the initial `exp = 1`. -/
def Digit_Shift_Sort_run (fuel : Nat) (arr : List Int) : Except Fault (Run Int) :=
  if toInt32 arr.length ≤ 1 then .ok ⟨arr, 1, 0⟩
  else outerLoop (get_max arr) (toInt32 arr.length).toNat fuel 1 0 arr

/-- `Digit_Shift_Sort`: the vector returned at line 35 or line 80. -/
def Digit_Shift_Sort (fuel : Nat) (arr : List Int) : Except Fault (List Int) :=
  match Digit_Shift_Sort_run fuel arr with
  | .error e => .error e
  | .ok r => .ok r.arr

/-! ## The same routine on tagged elements

The routine of lines 30-81 with elements of an arbitrary type `α` that carry
an `int` value `key a`.  Every place where the source reads a value for
arithmetic or comparison reads `key`; elements are moved as a whole. -/

section Keyed

variable {α : Type} (key : α → Int)

/-- The backward walk of lines 65-68 on tagged elements. -/
def shiftLoopBy (exp : Int) (current_digit : Int) :
    Nat → List α → Except Fault (List α × Nat)
  | 0, arr => .ok (arr, 0)
  | j + 1, arr =>
    match arr[j]? with
    | none => .error .outOfBounds
    | some prev =>
      if digitAt exp (key prev) > current_digit then
        if j + 1 < arr.length then
          shiftLoopBy exp current_digit j (arr.set (j + 1) prev)
        else .error .outOfBounds
      else .ok (arr, j + 1)

/-- The body of the `for` loop, lines 57-74, on tagged elements. -/
def insertStepBy (exp : Int) (arr : List α) (i : Nat) : Except Fault (List α) :=
  match arr[i]? with
  | none => .error .outOfBounds
  | some current_num =>
    match shiftLoopBy key exp (digitAt exp (key current_num)) i arr with
    | .error e => .error e
    | .ok (arr', k) =>
      if k < arr'.length then .ok (arr'.set k current_num) else .error .outOfBounds

/-- One digit pass, lines 56-75, on tagged elements. -/
def digitPassBy (exp : Int) (n : Nat) (arr : List α) : Except Fault (List α) :=
  (List.range' 1 (n - 1)).foldlM (insertStepBy key exp) arr

/-- The outer loop of lines 51-78 on tagged elements. -/
def outerLoopBy (max_val : Int) (n : Nat) :
    Nat → Int → Nat → List α → Except Fault (Run α)
  | 0, _, _, _ => .error .outOfFuel
  | fuel + 1, exp, passes, arr =>
    if max_val.tdiv exp > 0 then
      match digitPassBy key exp n arr with
      | .error e => .error e
      | .ok arr' =>
        if LLONG_MIN ≤ exp * 10 ∧ exp * 10 ≤ LLONG_MAX then
          outerLoopBy max_val n fuel (exp * 10) (passes + 1) arr'
        else .error .overflow
    else .ok ⟨arr, exp, passes⟩

/-- `Digit_Shift_Sort` on tagged elements, with its loop statistics. -/
def Digit_Shift_Sort_runBy (fuel : Nat) (arr : List α) : Except Fault (Run α) :=
  if toInt32 arr.length ≤ 1 then .ok ⟨arr, 1, 0⟩
  else outerLoopBy key (get_max (arr.map key)) (toInt32 arr.length).toNat fuel 1 0 arr

/-- `Digit_Shift_Sort` on tagged elements. -/
def Digit_Shift_SortBy (fuel : Nat) (arr : List α) : Except Fault (List α) :=
  match Digit_Shift_Sort_runBy key fuel arr with
  | .error e => .error e
  | .ok r => .ok r.arr

end Keyed

/-- Tag every element with its index: `(value, original index)`. -/
def tagged (arr : List Int) : List (Int × Nat) :=
  arr.zip (List.range arr.length)

/-! ## Vocabulary of the specification -/

section Vocabulary

variable {α : Type} (key : α → Int)

/-- The values carried by the elements of a run. -/
def Run.values (r : Run α) : Run Int := ⟨r.arr.map key, r.exp, r.passes⟩

/-- The order in which a pass keeps the reversed prefix: digits weakly decreasing. -/
def digitGe (d : α → Int) : α → α → Prop := fun a b => d b ≤ d a

instance (d : α → Int) : DecidableRel (digitGe d) := fun a b => by
  unfold digitGe; infer_instance

instance (d : α → Int) : IsTotal α (digitGe d) := ⟨fun a b => by
  unfold digitGe; exact le_total (d b) (d a)⟩

instance (d : α → Int) : IsTrans α (digitGe d) := ⟨fun a b c hab hbc => by
  unfold digitGe at *; exact le_trans hbc hab⟩

/-- Functional description of one digit pass with digit key `d`: a stable
insertion sort, written on the reversed list because the source walks each
prefix from its right end. -/
def passSpec (d : α → Int) (l : List α) : List α :=
  (List.insertionSort (digitGe d) l.reverse).reverse

/-- A digit pass whose loop bound is `n`, in terms of `passSpec`: the first `n`
elements are arranged, the others stay where they are. -/
def passSpecOn (d : α → Int) (n : Nat) (l : List α) : List α :=
  passSpec d (l.take n) ++ l.drop n

/-- The number formed by the `j` lowest decimal digits of the value of `a`. -/
def lowDigits (j : Nat) (a : α) : Nat := (key a).toNat % 10 ^ j

/-- The list `out` is the stable arrangement of `inp` by the key `k`: a
permutation of `inp`, non-decreasing in `k`, in which the elements of every
key value stand in the order they have in `inp`. -/
def StableSortedBy (k : α → Nat) (inp out : List α) : Prop :=
  out.Perm inp ∧ out.Pairwise (fun a b => k a ≤ k b) ∧
    ∀ v, out.filter (fun a => decide (k a = v)) = inp.filter (fun a => decide (k a = v))

end Vocabulary

/-- Non-negative values of a C++ `int`. -/
def NonNegInt32 (S : List Int) : Prop := ∀ x ∈ S, 0 ≤ x ∧ x ≤ INT_MAX

instance (S : List Int) : Decidable (NonNegInt32 S) := by
  unfold NonNegInt32; infer_instance

/-- A reference comparison-based ascending sort: insertion sort by `≤`. -/
def reference_sort (S : List Int) : List Int := S.insertionSort (· ≤ ·)

/-- The number of digits of the decimal numeral of `v`, sign aside; the numeral
of zero is `0`, which has one digit. -/
def decimalDigitCount (v : Int) : Nat :=
  if v = 0 then 1 else (Nat.digits 10 v.natAbs).length

/-! ## The outer loop with its history -/

/-- The record of one executed iteration of the outer loop: the place value, the
vector before the pass and the vector after it. -/
structure PassRecord where
  exp : Int
  before : List Int
  after : List Int
  deriving DecidableEq, Repr

/-- The outer loop of lines 51-78 with the digit pass of lines 56-75 as a
parameter `pass`. -/
def outerLoopWith (pass : Int → Nat → List Int → Except Fault (List Int)) (max_val : Int)
    (n : Nat) : Nat → Int → Nat → List Int → Except Fault (Run Int)
  | 0, _, _, _ => .error .outOfFuel
  | fuel + 1, exp, passes, arr =>
    if max_val.tdiv exp > 0 then
      match pass exp n arr with
      | .error e => .error e
      | .ok arr' =>
        if LLONG_MIN ≤ exp * 10 ∧ exp * 10 ≤ LLONG_MAX then
          outerLoopWith pass max_val n fuel (exp * 10) (passes + 1) arr'
        else .error .overflow
    else .ok ⟨arr, exp, passes⟩

/-- The outer loop of lines 51-78 with a history variable: the records of the
iterations executed, in order of execution. -/
def outerLoopTrace (pass : Int → Nat → List Int → Except Fault (List Int)) (max_val : Int)
    (n : Nat) : Nat → Int → List Int → Except Fault (List PassRecord)
  | 0, _, _ => .error .outOfFuel
  | fuel + 1, exp, arr =>
    if max_val.tdiv exp > 0 then
      match pass exp n arr with
      | .error e => .error e
      | .ok arr' =>
        if LLONG_MIN ≤ exp * 10 ∧ exp * 10 ≤ LLONG_MAX then
          match outerLoopTrace pass max_val n fuel (exp * 10) arr' with
          | .error e => .error e
          | .ok history => .ok (⟨exp, arr, arr'⟩ :: history)
        else .error .overflow
    else .ok []

/-- `Digit_Shift_Sort` with the digit pass as a parameter, with loop statistics. -/
def Digit_Shift_Sort_runWith (pass : Int → Nat → List Int → Except Fault (List Int))
    (fuel : Nat) (arr : List Int) : Except Fault (Run Int) :=
  if toInt32 arr.length ≤ 1 then .ok ⟨arr, 1, 0⟩
  else outerLoopWith pass (get_max arr) (toInt32 arr.length).toNat fuel 1 0 arr

/-- The history of the passes that a run of `Digit_Shift_Sort` executes, with the
digit pass as a parameter.  The early return of line 35 executes none. -/
def Digit_Shift_Sort_trace (pass : Int → Nat → List Int → Except Fault (List Int))
    (fuel : Nat) (arr : List Int) : Except Fault (List PassRecord) :=
  if toInt32 arr.length ≤ 1 then .ok []
  else outerLoopTrace pass (get_max arr) (toInt32 arr.length).toNat fuel 1 arr

/-- The vector after the first `j` passes when every pass covers the whole
vector, in terms of `passSpec`. -/
def radixState (S : List Int) : Nat → List Int
  | 0 => S
  | j + 1 => passSpec (digitAt ((10 : Int) ^ j)) (radixState S j)

/-- The vector after the first `j` passes when the loops read the bound `n`: the
first `n` elements have gone through the passes, the others stay where they are. -/
def coveredState (n : Nat) (S : List Int) (j : Nat) : List Int :=
  radixState (S.take n) j ++ S.drop n

/-- The list `out` is a stable arrangement of `inp` by the digit at place value
`exp`: a permutation, non-decreasing in the digit, with the elements of every
digit value in the order they have in `inp`. -/
def IsStableDigitSort (exp : Int) (inp out : List Int) : Prop :=
  out.Perm inp ∧ out.Pairwise (fun a b => digitAt exp a ≤ digitAt exp b) ∧
    ∀ d : Int, out.filter (fun x => decide (digitAt exp x = d)) =
      inp.filter (fun x => decide (digitAt exp x = d))

/-- A vector of `2 ^ 31` elements: `1, 0, 0, ..., 0`. -/
def hugeVector : List Int := 1 :: 0 :: List.replicate 2147483646 0

/-- A vector of `2 ^ 32 + 2` elements: `0, 0, 1, 0, 0, ..., 0`. -/
def wrappedVector : List Int := 0 :: 0 :: 1 :: 0 :: List.replicate 4294967294 0

/-- A counting-sort style bucket pass: for the digit values `0, ..., 9` in turn,
the elements with that digit, in the order of the input. -/
def bucketPass (exp : Int) (l : List Int) : List Int :=
  (List.range 10).flatMap (fun d => l.filter (fun x => decide (digitAt exp x = (d : Int))))

/-! ## The backward walk and the insertion step -/

section WalkRefinement

variable {α : Type} (key : α → Int)

theorem shiftLoopBy_spec (exp cd : Int) (Ar : List α) : ∀ (y : α) (B : List α),
    ∃ y', shiftLoopBy key exp cd Ar.length (Ar.reverse ++ y :: B) =
      .ok ((Ar.dropWhile (fun a => decide (digitAt exp (key a) > cd))).reverse ++
            y' :: ((Ar.takeWhile (fun a => decide (digitAt exp (key a) > cd))).reverse ++ B),
           (Ar.dropWhile (fun a => decide (digitAt exp (key a) > cd))).length) := by
  induction Ar with
  | nil => intro y B; exact ⟨y, by simp [shiftLoopBy]⟩
  | cons a Ar ih =>
    intro y B
    have hget : (Ar.reverse ++ a :: y :: B)[Ar.length]? = some a := by
      rw [List.getElem?_append_right (by simp)]; simp
    by_cases hp : digitAt exp (key a) > cd
    · obtain ⟨y', hy'⟩ := ih a (a :: B)
      refine ⟨y', ?_⟩
      have hset : (Ar.reverse ++ a :: y :: B).set (Ar.length + 1) a = Ar.reverse ++ a :: a :: B := by
        rw [List.set_append_right _ _ (by simp)]; simp
      simp only [List.length_cons, List.reverse_cons, List.append_assoc, List.singleton_append,
        shiftLoopBy, hget, hp, if_true, hset]
      rw [if_pos (by simp), hy']
      simp [List.dropWhile_cons, List.takeWhile_cons, hp]
    · refine ⟨y, ?_⟩
      simp [shiftLoopBy, hget, hp, List.dropWhile_cons, List.takeWhile_cons]

end WalkRefinement

section PassRefinement

variable {α : Type} (key : α → Int)

theorem length_passSpec (d : α → Int) (l : List α) : (passSpec d l).length = l.length := by
  simp [passSpec, List.length_insertionSort]

theorem insertStepBy_spec (exp : Int) (P : List α) (x : α) (R : List α) :
    insertStepBy key exp (P ++ x :: R) P.length =
      .ok ((List.orderedInsert (digitGe (fun a => digitAt exp (key a))) x P.reverse).reverse
            ++ R) := by
  have hget : (P ++ x :: R)[P.length]? = some x := by
    rw [List.getElem?_append_right (by simp)]; simp
  obtain ⟨y', hy'⟩ := shiftLoopBy_spec key exp (digitAt exp (key x)) P.reverse x R
  simp only [List.length_reverse, List.reverse_reverse] at hy'
  simp only [insertStepBy, hget, hy']
  rw [if_pos (by simp)]
  rw [List.set_append_right _ _ (by simp)]
  rw [List.orderedInsert_eq_take_drop]
  have hpred : (fun b => !decide (digitGe (fun a => digitAt exp (key a)) x b)) =
      (fun a => decide (digitAt exp (key x) < digitAt exp (key a))) := by
    funext b
    by_cases hb : digitAt exp (key x) < digitAt exp (key b)
    · simp [digitGe, hb]
    · simp [digitGe, hb, not_lt.mp hb]
  simp [hpred]

theorem foldlM_insertStepBy (exp : Int) (l : List α) : ∀ m, m + 1 ≤ l.length →
    (List.range' 1 m).foldlM (insertStepBy key exp) l =
      .ok (passSpec (fun a => digitAt exp (key a)) (l.take (m + 1)) ++ l.drop (m + 1)) := by
  intro m
  induction m with
  | zero =>
    intro h
    cases l with
    | nil => simp at h
    | cons a t => simp [passSpec, pure, Except.pure]
  | succ m ih =>
    intro h
    have hlt : m + 1 < l.length := by omega
    rw [List.range'_concat, List.foldlM_append, ih (by omega)]
    have hdrop : l.drop (m + 1) = l[m + 1] :: l.drop (m + 1 + 1) := List.drop_eq_getElem_cons hlt
    have htake : l.take (m + 1 + 1) = l.take (m + 1) ++ [l[m + 1]] := by
      rw [List.take_succ, List.getElem?_eq_getElem hlt]; rfl
    have hlen : (passSpec (fun a => digitAt exp (key a)) (l.take (m + 1))).length = m + 1 := by
      rw [length_passSpec, List.length_take]; omega
    have hstep := insertStepBy_spec key exp
      (passSpec (fun a => digitAt exp (key a)) (l.take (m + 1))) l[m + 1] (l.drop (m + 1 + 1))
    rw [hlen] at hstep
    simp only [bind, Except.bind, hdrop, one_mul, List.foldlM_cons, List.foldlM_nil,
      Nat.add_comm 1 m, hstep, pure, Except.pure]
    rw [htake]
    simp only [passSpec, List.reverse_append, List.reverse_singleton, List.singleton_append,
      List.insertionSort, List.reverse_reverse]

theorem digitPassBy_eq (exp : Int) (l : List α) :
    digitPassBy key exp l.length l = .ok (passSpec (fun a => digitAt exp (key a)) l) := by
  unfold digitPassBy
  cases l with
  | nil => simp [passSpec, pure, Except.pure]
  | cons a t =>
    have := foldlM_insertStepBy key exp (a :: t) t.length (by simp)
    simpa using this

end PassRefinement

/-! ## A pass is a stable insertion sort -/

section PassProps

variable {α : Type}

theorem passSpec_perm (d : α → Int) (l : List α) : (passSpec d l).Perm l := by
  unfold passSpec
  exact (List.reverse_perm _).trans ((List.perm_insertionSort _ _).trans (List.reverse_perm l))

theorem passSpec_pairwise (d : α → Int) (l : List α) :
    (passSpec d l).Pairwise (fun a b => d a ≤ d b) := by
  unfold passSpec
  rw [List.pairwise_reverse]
  exact List.sorted_insertionSort (digitGe d) l.reverse

theorem passSpec_sublist (d : α → Int) {c l : List α} (hc : c.Sublist l)
    (hp : c.Pairwise (fun a b => d a ≤ d b)) : c.Sublist (passSpec d l) := by
  unfold passSpec
  have h1 : c.reverse.Pairwise (digitGe d) := by
    rw [List.pairwise_reverse]; exact hp
  have h2 := List.sublist_insertionSort h1 hc.reverse
  simpa using h2.reverse

/-- Stability of a pass: a selection of elements that the digit key does not
separate comes out in the order it went in. -/
theorem passSpec_filter (d : α → Int) (l : List α) (q : α → Bool)
    (hq : ∀ a ∈ l, ∀ b ∈ l, q a = true → q b = true → d a = d b) :
    (passSpec d l).filter q = l.filter q := by
  have hpw : (l.filter q).Pairwise (fun a b => d a ≤ d b) := by
    rw [List.pairwise_iff_forall_sublist]
    intro a b hab
    have ha : a ∈ l.filter q := hab.subset (by simp)
    have hb : b ∈ l.filter q := hab.subset (by simp)
    exact le_of_eq (hq a (List.mem_filter.mp ha).1 b (List.mem_filter.mp hb).1
      (List.mem_filter.mp ha).2 (List.mem_filter.mp hb).2)
  have hsub : (l.filter q).Sublist (passSpec d l) :=
    passSpec_sublist d (List.filter_sublist l) hpw
  have hsub2 : (l.filter q).Sublist ((passSpec d l).filter q) := by
    have := hsub.filter q
    simpa [List.filter_filter] using this
  have hlen : ((passSpec d l).filter q).length = (l.filter q).length :=
    ((passSpec_perm d l).filter q).length_eq
  exact (hsub2.eq_of_length hlen.symm).symm

end PassProps

/-! ## The outer loop -/

section OuterLoop

variable {α : Type} (key : α → Int)

theorem tdiv_pos_iff (a e : Int) (he : 0 < e) : a.tdiv e > 0 ↔ e ≤ a := by
  rcases le_or_lt 0 a with ha | ha
  · rw [Int.tdiv_eq_ediv ha he.le]
    constructor
    · intro h
      have := (Int.le_ediv_iff_mul_le he).mp (show (1 : Int) ≤ a / e from h)
      simpa using this
    · intro h
      have := (Int.le_ediv_iff_mul_le he).mpr (show (1 : Int) * e ≤ a by simpa using h)
      exact this
  · constructor
    · intro h
      have h1 : (-a).tdiv e = (-a) / e := Int.tdiv_eq_ediv (by omega) he.le
      have h2 : 0 ≤ (-a) / e := Int.ediv_nonneg (by omega) he.le
      rw [Int.neg_tdiv] at h1
      omega
    · intro h; omega

theorem length_passSpecOn (d : α → Int) (n : Nat) (l : List α) :
    (passSpecOn d n l).length = l.length := by
  unfold passSpecOn
  rw [List.length_append, length_passSpec, ← List.length_append, List.take_append_drop]

theorem passSpecOn_perm (d : α → Int) (n : Nat) (l : List α) : (passSpecOn d n l).Perm l := by
  unfold passSpecOn
  have h := (passSpec_perm d (l.take n)).append_right (l.drop n)
  rwa [List.take_append_drop] at h

theorem passSpecOn_length (d : α → Int) (l : List α) : passSpecOn d l.length l = passSpec d l := by
  unfold passSpecOn
  rw [List.take_length, List.drop_length, List.append_nil]

/-- A pass with loop bound `n` arranges the first `n` elements. -/
theorem digitPassBy_on (exp : Int) (n : Nat) (l : List α) (hn : n ≤ l.length) :
    digitPassBy key exp n l = .ok (passSpecOn (fun a => digitAt exp (key a)) n l) := by
  cases n with
  | zero => simp [digitPassBy, passSpecOn, passSpec, pure, Except.pure]
  | succ m =>
    unfold digitPassBy passSpecOn
    exact foldlM_insertStepBy key exp l m hn

/-- Loop rule for the outer loop: an invariant `I` indexed by the number of the
digit position that every executed pass carries one step further holds at exit,
and the exit position `K` is the first one whose place value exceeds `max_val`. -/
theorem outerLoopBy_rule (max_val : Int) (n : Nat) (hmax : max_val ≤ INT_MAX)
    (I : Nat → List α → Prop)
    (hI : ∀ j l, I j l → n ≤ l.length → (10 : Int) ^ j ≤ max_val →
      I (j + 1) (passSpecOn (fun a => digitAt ((10 : Int) ^ j) (key a)) n l)) :
    ∀ (fuel k passes : Nat) (arr : List α), n ≤ arr.length → I k arr →
      max_val < (10 : Int) ^ (k + fuel) →
      ∃ K final, outerLoopBy key max_val n (fuel + 1) ((10 : Int) ^ k) passes arr =
          .ok ⟨final, (10 : Int) ^ K, passes + (K - k)⟩ ∧
        final.length = arr.length ∧ I K final ∧ k ≤ K ∧ max_val < (10 : Int) ^ K ∧
        ∀ j, k ≤ j → j < K → (10 : Int) ^ j ≤ max_val := by
  intro fuel
  induction fuel with
  | zero =>
    intro k passes arr hn hk hlt
    have hcond : ¬ max_val.tdiv ((10 : Int) ^ k) > 0 := by
      rw [tdiv_pos_iff _ _ (by positivity)]; simpa using hlt
    refine ⟨k, arr, ?_, rfl, hk, le_refl k, by simpa using hlt, fun j h1 h2 => by omega⟩
    simp [outerLoopBy, hcond]
  | succ f ih =>
    intro k passes arr hn hk hlt
    by_cases hcond : max_val.tdiv ((10 : Int) ^ k) > 0
    · have hle : (10 : Int) ^ k ≤ max_val := (tdiv_pos_iff _ _ (by positivity)).mp hcond
      have hpos : (0 : Int) < (10 : Int) ^ k := by positivity
      have hov : LLONG_MIN ≤ (10 : Int) ^ k * 10 ∧ (10 : Int) ^ k * 10 ≤ LLONG_MAX := by
        unfold LLONG_MIN LLONG_MAX; unfold INT_MAX at hmax; constructor <;> omega
      have hpass := digitPassBy_on key ((10 : Int) ^ k) n arr hn
      obtain ⟨K, final, hrun, hlen, hIK, hkK, hK, hall⟩ :=
        ih (k + 1) (passes + 1)
          (passSpecOn (fun a => digitAt ((10 : Int) ^ k) (key a)) n arr)
          (by rw [length_passSpecOn]; exact hn) (hI k arr hk hn hle)
          (by rw [show k + 1 + f = k + (f + 1) by omega]; exact hlt)
      rw [length_passSpecOn] at hlen
      refine ⟨K, final, ?_, hlen, hIK, by omega, hK, ?_⟩
      · rw [outerLoopBy, if_pos hcond, hpass]
        simp only [if_pos hov]
        rw [← pow_succ, hrun, show passes + 1 + (K - (k + 1)) = passes + (K - k) by omega]
      · intro j h1 h2
        rcases Nat.eq_or_lt_of_le h1 with h | h
        · rw [← h]; exact hle
        · exact hall j h h2
    · have hlt2 : max_val < (10 : Int) ^ k := by
        rw [tdiv_pos_iff _ _ (by positivity)] at hcond; simpa using hcond
      refine ⟨k, arr, ?_, rfl, hk, le_refl k, hlt2, fun j h1 h2 => by omega⟩
      simp [outerLoopBy, hcond]

end OuterLoop

/-! ## The radix invariant -/

section Radix

variable {α : Type} (key : α → Int)

theorem digitAt_of_nonneg (j : Nat) (x : Int) (hx : 0 ≤ x) :
    digitAt ((10 : Int) ^ j) x = ((x.toNat / 10 ^ j % 10 : Nat) : Int) := by
  obtain ⟨n, rfl⟩ := Int.eq_ofNat_of_zero_le hx
  unfold digitAt
  rw [Int.tdiv_eq_ediv (by positivity) (by positivity),
    Int.tmod_eq_emod (Int.ediv_nonneg (by positivity) (by positivity)) (by norm_num)]
  simp

theorem lowDigits_succ (j : Nat) (a : α) :
    lowDigits key (j + 1) a = lowDigits key j a + 10 ^ j * ((key a).toNat / 10 ^ j % 10) := by
  unfold lowDigits; exact Nat.mod_pow_succ

theorem lowDigits_lt (j : Nat) (a : α) : lowDigits key j a < 10 ^ j :=
  Nat.mod_lt _ (by positivity)

theorem lowDigits_succ_mod (j : Nat) (a : α) :
    lowDigits key (j + 1) a % 10 ^ j = lowDigits key j a := by
  unfold lowDigits
  exact Nat.mod_mod_of_dvd _ ⟨10, by rw [pow_succ]⟩

theorem lowDigits_succ_div (j : Nat) (a : α) :
    lowDigits key (j + 1) a / 10 ^ j = (key a).toNat / 10 ^ j % 10 := by
  rw [lowDigits_succ, Nat.add_mul_div_left _ _ (by positivity),
    Nat.div_eq_of_lt (lowDigits_lt key j a), Nat.zero_add]

/-- One pass carries the radix invariant from `j` digits to `j + 1` digits. -/
theorem radix_step (S l : List α) (j : Nat) (hnn : ∀ a ∈ S, 0 ≤ key a)
    (h : StableSortedBy (lowDigits key j) S l) :
    StableSortedBy (lowDigits key (j + 1)) S
      (passSpec (fun a => digitAt ((10 : Int) ^ j) (key a)) l) := by
  obtain ⟨hperm, hpw, hfil⟩ := h
  have hnnl : ∀ a ∈ l, 0 ≤ key a := fun a ha => hnn a (hperm.subset ha)
  have hdig : ∀ a ∈ l, digitAt ((10 : Int) ^ j) (key a) =
      (((key a).toNat / 10 ^ j % 10 : Nat) : Int) :=
    fun a ha => digitAt_of_nonneg j (key a) (hnnl a ha)
  have hpp := passSpec_perm (fun a => digitAt ((10 : Int) ^ j) (key a)) l
  refine ⟨hpp.trans hperm, ?_, ?_⟩
  · rw [List.pairwise_iff_forall_sublist]
    intro a b hab
    have ha : a ∈ l := hpp.subset (hab.subset (by simp))
    have hb : b ∈ l := hpp.subset (hab.subset (by simp))
    have hd : digitAt ((10 : Int) ^ j) (key a) ≤ digitAt ((10 : Int) ^ j) (key b) :=
      List.pairwise_iff_forall_sublist.mp (passSpec_pairwise _ l) hab
    rw [hdig a ha, hdig b hb] at hd
    have hd2 : (key a).toNat / 10 ^ j % 10 ≤ (key b).toNat / 10 ^ j % 10 := by exact_mod_cast hd
    rw [lowDigits_succ, lowDigits_succ]
    rcases Nat.eq_or_lt_of_le hd2 with heq | hlt
    · have hsub : [a, b].Sublist l := by
        have h1 := hab.filter
          (fun x => decide (digitAt ((10 : Int) ^ j) (key x) = digitAt ((10 : Int) ^ j) (key a)))
        rw [passSpec_filter _ l _ (fun x _ y _ hx hy => by
          rw [of_decide_eq_true hx, of_decide_eq_true hy])] at h1
        have h2 : [a, b].filter
            (fun x => decide (digitAt ((10 : Int) ^ j) (key x) = digitAt ((10 : Int) ^ j) (key a)))
            = [a, b] := by
          rw [List.filter_eq_self]
          intro x hx
          simp only [List.mem_cons, List.mem_singleton, List.not_mem_nil, or_false] at hx
          rcases hx with rfl | rfl
          · simp
          · simp [hdig _ ha, hdig _ hb, heq]
        rw [h2] at h1
        exact h1.trans (List.filter_sublist _)
      have hlow : lowDigits key j a ≤ lowDigits key j b := by
        have hpw2 := hpw.sublist hsub
        simpa using hpw2
      rw [heq]; omega
    · have h1 := lowDigits_lt key j a
      have h2 : 10 ^ j * ((key a).toNat / 10 ^ j % 10 + 1) ≤
          10 ^ j * ((key b).toNat / 10 ^ j % 10) := Nat.mul_le_mul_left _ hlt
      rw [Nat.mul_add, Nat.mul_one] at h2
      omega
  · intro v
    rw [passSpec_filter _ l _ (fun x hx y hy hqx hqy => by
      rw [hdig x hx, hdig y hy, ← lowDigits_succ_div key j x, ← lowDigits_succ_div key j y,
        of_decide_eq_true hqx, of_decide_eq_true hqy])]
    have hsplit : ∀ (L : List α), L.filter (fun a => decide (lowDigits key (j + 1) a = v)) =
        (L.filter (fun a => decide (lowDigits key j a = v % 10 ^ j))).filter
          (fun a => decide (lowDigits key (j + 1) a = v)) := by
      intro L
      rw [List.filter_filter]
      congr 1
      funext a
      by_cases hv : lowDigits key (j + 1) a = v
      · have : lowDigits key j a = v % 10 ^ j := by rw [← hv, lowDigits_succ_mod]
        simp [hv, this]
      · simp [hv]
    rw [hsplit l, hsplit S, hfil]

end Radix

/-! ## Plain values and tagged elements -/

section Simulation

variable {α : Type} (key : α → Int)

theorem shiftLoop_map (exp cd : Int) : ∀ (k : Nat) (arr : List α),
    shiftLoop exp cd k (arr.map key) =
      (shiftLoopBy key exp cd k arr).map (fun p => (p.1.map key, p.2)) := by
  intro k
  induction k with
  | zero => intro arr; simp [shiftLoop, shiftLoopBy, Except.map]
  | succ j ih =>
    intro arr
    simp only [shiftLoop, shiftLoopBy, List.getElem?_map, List.length_map]
    cases hj : arr[j]? with
    | none => simp [Except.map]
    | some prev =>
      simp only [Option.map_some']
      by_cases hd : digitAt exp (key prev) > cd
      · by_cases hb : j + 1 < arr.length
        · simp only [hd, hb, if_true]
          rw [← ih, List.map_set]
        · simp [hd, hb, Except.map]
      · simp [hd, Except.map]

theorem insertStep_map (exp : Int) (arr : List α) (i : Nat) :
    insertStep exp (arr.map key) i = (insertStepBy key exp arr i).map (List.map key) := by
  simp only [insertStep, insertStepBy, List.getElem?_map]
  cases hi : arr[i]? with
  | none => simp [Except.map]
  | some cur =>
    simp only [Option.map_some', shiftLoop_map]
    cases hs : shiftLoopBy key exp (digitAt exp (key cur)) i arr with
    | error e => simp [Except.map]
    | ok p =>
      obtain ⟨a, k⟩ := p
      by_cases hk : k < a.length
      · simp [Except.map, hk, List.map_set]
      · simp [Except.map, hk]

theorem foldlM_insertStep_map (exp : Int) (is : List Nat) : ∀ (arr : List α),
    is.foldlM (insertStep exp) (arr.map key) =
      (is.foldlM (insertStepBy key exp) arr).map (List.map key) := by
  induction is with
  | nil => intro arr; simp [pure, Except.pure, Except.map]
  | cons i is ih =>
    intro arr
    simp only [List.foldlM_cons, insertStep_map, bind, Except.bind]
    cases hs : insertStepBy key exp arr i with
    | error e => simp [Except.map]
    | ok a => simp only [Except.map]; rw [ih a]; rfl

theorem digitPass_map (exp : Int) (n : Nat) (arr : List α) :
    digitPass exp n (arr.map key) = (digitPassBy key exp n arr).map (List.map key) :=
  foldlM_insertStep_map key exp _ arr

theorem outerLoop_map (max_val : Int) (n : Nat) : ∀ (fuel : Nat) (exp : Int) (passes : Nat)
    (arr : List α),
    outerLoop max_val n fuel exp passes (arr.map key) =
      (outerLoopBy key max_val n fuel exp passes arr).map (Run.values key) := by
  intro fuel
  induction fuel with
  | zero => intro exp passes arr; simp [outerLoop, outerLoopBy, Except.map]
  | succ f ih =>
    intro exp passes arr
    simp only [outerLoop, outerLoopBy, digitPass_map]
    by_cases hc : max_val.tdiv exp > 0
    · simp only [hc, if_true]
      cases hp : digitPassBy key exp n arr with
      | error e => simp [Except.map]
      | ok a =>
        by_cases ho : LLONG_MIN ≤ exp * 10 ∧ exp * 10 ≤ LLONG_MAX
        · simp only [Except.map, ho, and_self, if_true]; rw [ih]; rfl
        · simp [Except.map, ho]
    · simp [hc, Except.map, Run.values]

/-- The tagged routine moves the elements exactly as the routine on plain
values moves the values. -/
theorem Digit_Shift_Sort_run_map (fuel : Nat) (arr : List α) :
    Digit_Shift_Sort_run fuel (arr.map key) =
      (Digit_Shift_Sort_runBy key fuel arr).map (Run.values key) := by
  rw [Digit_Shift_Sort_run, Digit_Shift_Sort_runBy, List.length_map]
  by_cases h : toInt32 arr.length ≤ 1
  · rw [if_pos h, if_pos h]
    simp only [Except.map, Run.values]
  · rw [if_neg h, if_neg h]
    exact outerLoop_map key _ _ _ _ _ _

theorem Digit_Shift_Sort_map (fuel : Nat) (arr : List α) :
    Digit_Shift_Sort fuel (arr.map key) =
      (Digit_Shift_SortBy key fuel arr).map (List.map key) := by
  rw [Digit_Shift_Sort, Digit_Shift_SortBy, Digit_Shift_Sort_run_map]
  cases Digit_Shift_Sort_runBy key fuel arr with
  | error e => rfl
  | ok r => rfl

theorem Digit_Shift_Sort_run_eq (fuel : Nat) (arr : List Int) :
    Digit_Shift_Sort_run fuel arr = Digit_Shift_Sort_runBy (fun x => x) fuel arr := by
  have h := Digit_Shift_Sort_run_map (fun x : Int => x) fuel arr
  rw [List.map_id' arr] at h
  rw [h]
  cases Digit_Shift_Sort_runBy (fun x : Int => x) fuel arr with
  | error e => rfl
  | ok r =>
    obtain ⟨a, e, p⟩ := r
    simp only [Except.map, Run.values, List.map_id']

end Simulation

/-! ## The whole routine -/

section TopLevel

variable {α : Type} (key : α → Int)

theorem foldl_max_spec : ∀ (rest : List Int) (first : Int),
    rest.foldl (fun largest x => if largest < x then x else largest) first ∈ first :: rest ∧
    ∀ x ∈ first :: rest,
      x ≤ rest.foldl (fun largest x => if largest < x then x else largest) first := by
  intro rest
  induction rest with
  | nil => intro first; simp
  | cons y ys ih =>
    intro first
    simp only [List.foldl_cons]
    have hih := ih (if first < y then y else first)
    by_cases hfy : first < y
    · simp only [hfy, if_true] at hih ⊢
      obtain ⟨hmem, hge⟩ := hih
      refine ⟨List.mem_cons_of_mem _ hmem, fun x hx => ?_⟩
      rcases List.mem_cons.mp hx with h | h
      · have := hge y (List.mem_cons_self _ _); omega
      · exact hge x h
    · simp only [hfy, if_false] at hih ⊢
      obtain ⟨hmem, hge⟩ := hih
      constructor
      · rcases List.mem_cons.mp hmem with h | h
        · rw [h]; exact List.mem_cons_self _ _
        · exact List.mem_cons_of_mem _ (List.mem_cons_of_mem _ h)
      · intro x hx
        have h0 := hge first (List.mem_cons_self _ _)
        rcases List.mem_cons.mp hx with h | h
        · omega
        · rcases List.mem_cons.mp h with h | h
          · omega
          · exact hge x (List.mem_cons_of_mem _ h)

theorem get_max_mem (l : List Int) (h : l ≠ []) : get_max l ∈ l := by
  cases l with
  | nil => exact absurd rfl h
  | cons a t => exact (foldl_max_spec t a).1

theorem le_get_max (l : List Int) : ∀ x ∈ l, x ≤ get_max l := by
  cases l with
  | nil => simp
  | cons a t => exact (foldl_max_spec t a).2

theorem pow10_gt_INT_MAX : INT_MAX < (10 : Int) ^ 10 := by
  unfold INT_MAX; norm_num

theorem StableSortedBy.congr {k k' : α → Nat} {inp out : List α}
    (h : StableSortedBy k inp out) (hk : ∀ a ∈ inp, k a = k' a) :
    StableSortedBy k' inp out := by
  obtain ⟨hperm, hpw, hfil⟩ := h
  have hk' : ∀ a ∈ out, k a = k' a := fun a ha => hk a (hperm.subset ha)
  refine ⟨hperm, ?_, ?_⟩
  · exact hpw.imp_of_mem (fun {a b} ha hb hab => by rw [← hk' a ha, ← hk' b hb]; exact hab)
  · intro v
    have h1 : out.filter (fun a => decide (k' a = v)) = out.filter (fun a => decide (k a = v)) :=
      List.filter_congr (fun a ha => by rw [hk' a ha])
    have h2 : inp.filter (fun a => decide (k' a = v)) = inp.filter (fun a => decide (k a = v)) :=
      List.filter_congr (fun a ha => by rw [hk a ha])
    rw [h1, h2, hfil]

theorem toInt32_of_le (size : Nat) (h : size ≤ 2147483647) : toInt32 size = size := by
  unfold toInt32; split_ifs <;> omega

theorem toInt32_toNat_le (size : Nat) : (toInt32 size).toNat ≤ size := by
  unfold toInt32; split_ifs <;> omega

theorem toInt32_le_one (size : Nat) (h : size ≤ 1) : toInt32 size ≤ 1 := by
  rw [toInt32_of_le size (by omega)]; omega

theorem coveredLength_le (size : Nat) : coveredLength size ≤ size := by
  unfold coveredLength
  split_ifs
  · exact Nat.zero_le _
  · exact toInt32_toNat_le size

theorem coveredLength_of_le (size : Nat) (h2 : 2 ≤ size) (h : size ≤ 2147483647) :
    coveredLength size = size := by
  unfold coveredLength
  rw [toInt32_of_le size h, if_neg (by omega)]
  exact Int.toNat_ofNat size

/-- Behaviour of the routine past the test of line 34, for any invariant that the
passes carry forward. -/
theorem runBy_rule (S : List α) (hn : ¬ toInt32 S.length ≤ 1)
    (hmax : get_max (S.map key) ≤ INT_MAX) (fuel : Nat) (hfuel : 11 ≤ fuel)
    (I : Nat → List α → Prop)
    (hI : ∀ j l, I j l → (toInt32 S.length).toNat ≤ l.length →
      (10 : Int) ^ j ≤ get_max (S.map key) →
      I (j + 1) (passSpecOn (fun a => digitAt ((10 : Int) ^ j) (key a))
        (toInt32 S.length).toNat l))
    (h0 : I 0 S) :
    ∃ K final, Digit_Shift_Sort_runBy key fuel S = .ok ⟨final, (10 : Int) ^ K, K⟩ ∧
      final.length = S.length ∧ I K final ∧ get_max (S.map key) < (10 : Int) ^ K ∧
      ∀ j, j < K → (10 : Int) ^ j ≤ get_max (S.map key) := by
  obtain ⟨f, rfl⟩ : ∃ f, fuel = f + 1 := ⟨fuel - 1, by omega⟩
  have hlt : get_max (S.map key) < (10 : Int) ^ (0 + f) := by
    have h1 : (10 : Int) ^ 10 ≤ (10 : Int) ^ (0 + f) :=
      pow_le_pow_right₀ (by norm_num) (by omega)
    have h2 := pow10_gt_INT_MAX
    omega
  obtain ⟨K, final, hrun, hl, hIK, _, hK, hall⟩ :=
    outerLoopBy_rule key (get_max (S.map key)) (toInt32 S.length).toNat hmax I hI f 0 0 S
      (toInt32_toNat_le _) h0 hlt
  refine ⟨K, final, ?_, hl, hIK, hK, fun j hj => hall j (Nat.zero_le j) hj⟩
  rw [Digit_Shift_Sort_runBy, if_neg hn]
  simpa using hrun

/-- On values that fit an `int`, of either sign, the routine returns a
permutation of its input after at most ten passes. -/
theorem runBy_perm (S : List α) (hS : ∀ a ∈ S, key a ≤ INT_MAX)
    (fuel : Nat) (hfuel : 11 ≤ fuel) :
    ∃ K final, Digit_Shift_Sort_runBy key fuel S = .ok ⟨final, (10 : Int) ^ K, K⟩ ∧
      final.Perm S ∧ K ≤ 10 := by
  by_cases hn : toInt32 S.length ≤ 1
  · refine ⟨0, S, ?_, List.Perm.refl S, by omega⟩
    rw [Digit_Shift_Sort_runBy, if_pos hn, pow_zero]
  · have hne : S.map key ≠ [] := by
      intro h
      rw [List.map_eq_nil_iff] at h
      rw [h] at hn
      exact hn (toInt32_le_one 0 (by omega))
    have hmax : get_max (S.map key) ≤ INT_MAX := by
      obtain ⟨a, ha, hka⟩ := List.mem_map.mp (get_max_mem _ hne)
      rw [← hka]; exact hS a ha
    obtain ⟨K, final, hrun, _, hperm, _, hall⟩ :=
      runBy_rule key S hn hmax fuel hfuel (fun _ l => l.Perm S)
        (fun j l hl _ _ => (passSpecOn_perm _ _ l).trans hl) (List.Perm.refl S)
    refine ⟨K, final, hrun, hperm, ?_⟩
    by_contra hK
    have h1 := hall 10 (by omega)
    have h2 := pow10_gt_INT_MAX
    omega

/-- On non-negative 32-bit values the routine returns the stable arrangement by
value of the elements it covers, followed by the elements it does not cover. -/
theorem runBy_stable (S : List α) (hS : ∀ a ∈ S, 0 ≤ key a ∧ key a ≤ INT_MAX)
    (fuel : Nat) (hfuel : 11 ≤ fuel) :
    ∃ K p, Digit_Shift_Sort_runBy key fuel S =
        .ok ⟨p ++ S.drop (coveredLength S.length), (10 : Int) ^ K, K⟩ ∧
      StableSortedBy (fun a => (key a).toNat) (S.take (coveredLength S.length)) p := by
  by_cases hn : toInt32 S.length ≤ 1
  · have hc : coveredLength S.length = 0 := by rw [coveredLength, if_pos hn]
    refine ⟨0, [], ?_, ?_⟩
    · rw [Digit_Shift_Sort_runBy, if_pos hn, hc, pow_zero]; rfl
    · rw [hc]; exact ⟨List.Perm.refl _, List.Pairwise.nil, fun _ => rfl⟩
  · have hc : coveredLength S.length = (toInt32 S.length).toNat := by
      rw [coveredLength, if_neg hn]
    have hcl : (toInt32 S.length).toNat ≤ S.length := toInt32_toNat_le _
    have hne : S.map key ≠ [] := by
      intro h
      rw [List.map_eq_nil_iff] at h
      rw [h] at hn
      exact hn (toInt32_le_one 0 (by omega))
    have hmax : get_max (S.map key) ≤ INT_MAX := by
      obtain ⟨a, ha, hka⟩ := List.mem_map.mp (get_max_mem _ hne)
      rw [← hka]; exact (hS a ha).2
    have hnnT : ∀ a ∈ S.take (toInt32 S.length).toNat, 0 ≤ key a :=
      fun a ha => (hS a (List.mem_of_mem_take ha)).1
    obtain ⟨K, final, hrun, _, ⟨p, hfinal, hstab⟩, hK, _⟩ :=
      runBy_rule key S hn hmax fuel hfuel
        (fun j l => ∃ p, l = p ++ S.drop (toInt32 S.length).toNat ∧
          StableSortedBy (lowDigits key j) (S.take (toInt32 S.length).toNat) p)
        (fun j l hjl _ _ => by
          obtain ⟨p, hl, hp⟩ := hjl
          have hplen : p.length = (toInt32 S.length).toNat := by
            rw [hp.1.length_eq, List.length_take]; omega
          refine ⟨passSpec (fun a => digitAt ((10 : Int) ^ j) (key a)) p, ?_,
            radix_step key _ p j hnnT hp⟩
          rw [passSpecOn, hl, List.take_left' hplen, List.drop_left' hplen])
        ⟨S.take (toInt32 S.length).toNat, (List.take_append_drop _ S).symm,
          List.Perm.refl _,
          List.pairwise_of_forall (fun a b => by simp [lowDigits, Nat.mod_one]),
          fun v => rfl⟩
    refine ⟨K, p, by rw [hc, ← hfinal]; exact hrun, ?_⟩
    rw [hc]
    refine hstab.congr (fun a ha => ?_)
    have h1 : key a ≤ get_max (S.map key) :=
      le_get_max _ _ (List.mem_map_of_mem key (List.mem_of_mem_take ha))
    have h2 := hnnT a ha
    unfold lowDigits
    apply Nat.mod_eq_of_lt
    have h3 : ((key a).toNat : Int) < ((10 ^ K : Nat) : Int) := by
      rw [Int.toNat_of_nonneg h2]; push_cast; omega
    exact_mod_cast h3

end TopLevel

/-! ## Lemmas on the routine over plain values -/

section Plain

theorem sort_of_run {fuel : Nat} {S : List Int} {r : Run Int}
    (h : Digit_Shift_Sort_run fuel S = .ok r) : Digit_Shift_Sort fuel S = .ok r.arr := by
  rw [Digit_Shift_Sort, h]

theorem sortBy_of_runBy {α : Type} {key : α → Int} {fuel : Nat} {S : List α} {r : Run α}
    (h : Digit_Shift_Sort_runBy key fuel S = .ok r) :
    Digit_Shift_SortBy key fuel S = .ok r.arr := by
  rw [Digit_Shift_SortBy, h]

/-- On `int` values of either sign the plain routine returns a permutation of
its input after at most ten passes. -/
theorem run_perm (S : List Int) (hS : ∀ x ∈ S, x ≤ INT_MAX) (fuel : Nat)
    (hfuel : 11 ≤ fuel) :
    ∃ K final, Digit_Shift_Sort_run fuel S = .ok ⟨final, (10 : Int) ^ K, K⟩ ∧
      final.Perm S ∧ K ≤ 10 := by
  obtain ⟨K, final, hrun, hperm, hK⟩ := runBy_perm (fun x : Int => x) S hS fuel hfuel
  exact ⟨K, final, by rw [Digit_Shift_Sort_run_eq]; exact hrun, hperm, hK⟩

/-- On non-negative `int` values the plain routine returns the elements it covers
in ascending order, followed by the elements it does not cover. -/
theorem run_covered (S : List Int) (hS : NonNegInt32 S) (fuel : Nat) (hfuel : 11 ≤ fuel) :
    ∃ K p, Digit_Shift_Sort_run fuel S =
        .ok ⟨p ++ S.drop (coveredLength S.length), (10 : Int) ^ K, K⟩ ∧
      p.Perm (S.take (coveredLength S.length)) ∧ p.Sorted (· ≤ ·) := by
  obtain ⟨K, p, hrun, hperm, hpw, _⟩ := runBy_stable (fun x : Int => x) S hS fuel hfuel
  refine ⟨K, p, by rw [Digit_Shift_Sort_run_eq]; exact hrun, hperm, ?_⟩
  exact hpw.imp_of_mem (fun {a b} ha hb hab => by
    have h1 := (hS a (List.mem_of_mem_take (hperm.subset ha))).1
    have h2 := (hS b (List.mem_of_mem_take (hperm.subset hb))).1
    have h3 : a.toNat ≤ b.toNat := hab
    omega)

/-- On a vector of fewer than `2 ^ 31` non-negative `int` values the routine
returns the ascending arrangement of its input. -/
theorem sort_sorted (S : List Int) (hS : NonNegInt32 S) (hsize : S.length ≤ 2147483647)
    (fuel : Nat) (hfuel : 11 ≤ fuel) :
    ∃ result, Digit_Shift_Sort fuel S = .ok result ∧ result.Perm S ∧
      result.Sorted (· ≤ ·) := by
  by_cases hlen : S.length ≤ 1
  · have hrun : Digit_Shift_Sort_run fuel S = .ok ⟨S, 1, 0⟩ := by
      rw [Digit_Shift_Sort_run, if_pos (toInt32_le_one _ hlen)]
    refine ⟨S, sort_of_run hrun, List.Perm.refl S, ?_⟩
    match S, hlen with
    | [], _ => exact List.sorted_nil
    | [a], _ => exact List.sorted_singleton a
  · obtain ⟨K, p, hrun, hperm, hs⟩ := run_covered S hS fuel hfuel
    rw [coveredLength_of_le S.length (by omega) hsize, List.drop_length, List.append_nil] at hrun
    rw [coveredLength_of_le S.length (by omega) hsize, List.take_length] at hperm
    exact ⟨p, sort_of_run hrun, hperm, hs⟩

theorem tagged_values (S : List Int) : (tagged S).map Prod.fst = S := by
  unfold tagged; exact List.map_fst_zip _ _ (by simp)

theorem tagged_tags (S : List Int) : (tagged S).map Prod.snd = List.range S.length := by
  unfold tagged; exact List.map_snd_zip _ _ (by simp)

theorem tagged_pairwise (S : List Int) : (tagged S).Pairwise (fun a b => a.2 < b.2) := by
  have h := List.pairwise_lt_range S.length
  rw [← tagged_tags S, List.pairwise_map] at h
  exact h

/-- Order-preservation from equality of selections: when the elements selected
by `q` stand in `out` as they stand in `inp`, a relation that holds along `inp`
holds between any two selected elements along `out`. -/
theorem rel_of_filter_eq {α : Type} {R : α → α → Prop} {inp out : List α} (q : α → Bool)
    (hf : out.filter q = inp.filter q) (hR : inp.Pairwise R) {a b : α}
    (hab : [a, b].Sublist out) (ha : q a = true) (hb : q b = true) : R a b := by
  have h1 := hab.filter q
  have h2 : [a, b].filter q = [a, b] := by
    rw [List.filter_eq_self]
    intro x hx
    simp only [List.mem_cons, List.mem_singleton, List.not_mem_nil, or_false] at hx
    rcases hx with rfl | rfl
    · exact ha
    · exact hb
  rw [h2, hf] at h1
  have h3 := hR.sublist (h1.trans (List.filter_sublist _))
  simpa using h3

theorem length_tagged (S : List Int) : (tagged S).length = S.length := by
  simp [tagged]

/-- Loop statistics of a run past the test of line 34. -/
theorem run_stats (S : List Int) (hn : ¬ toInt32 S.length ≤ 1) (hmax : get_max S ≤ INT_MAX)
    (fuel : Nat) (hfuel : 11 ≤ fuel) :
    ∃ K final, Digit_Shift_Sort_run fuel S = .ok ⟨final, (10 : Int) ^ K, K⟩ ∧
      get_max S < (10 : Int) ^ K ∧ ∀ j, j < K → (10 : Int) ^ j ≤ get_max S := by
  have hmap : S.map (fun x : Int => x) = S := List.map_id' S
  obtain ⟨K, final, hrun, _, _, hK, hall⟩ :=
    runBy_rule (fun x : Int => x) S hn (by rw [hmap]; exact hmax) fuel hfuel
      (fun _ _ => True) (fun _ _ _ _ _ => trivial) trivial
  rw [hmap] at hK hall
  exact ⟨K, final, by rw [Digit_Shift_Sort_run_eq]; exact hrun, hK, hall⟩

theorem passes_le_ten (m : Int) (hm : m ≤ INT_MAX) (K : Nat)
    (hall : ∀ j, j < K → (10 : Int) ^ j ≤ m) : K ≤ 10 := by
  by_contra hK
  have h1 := hall 10 (by omega)
  have h2 := pow10_gt_INT_MAX
  omega

theorem passes_eq_digits (m : Int) (hm : 0 < m) (K : Nat) (hK : m < (10 : Int) ^ K)
    (hall : ∀ j, j < K → (10 : Int) ^ j ≤ m) : K = decimalDigitCount m := by
  obtain ⟨n, rfl⟩ := Int.eq_ofNat_of_zero_le hm.le
  have hn : n ≠ 0 := by rintro rfl; simp at hm
  have hKn : n < 10 ^ K := by exact_mod_cast hK
  have halln : ∀ j, j < K → 10 ^ j ≤ n := fun j hj => by exact_mod_cast hall j hj
  unfold decimalDigitCount
  rw [if_neg (by exact_mod_cast hn)]
  simp only [Int.natAbs_ofNat]
  have hupper : n < 10 ^ (Nat.digits 10 n).length := Nat.lt_base_pow_length_digits (by norm_num)
  have hlower : 10 ^ (Nat.digits 10 n).length ≤ 10 * n :=
    Nat.base_pow_length_digits_le 10 n (by norm_num) hn
  rcases Nat.lt_trichotomy K (Nat.digits 10 n).length with h | h | h
  · exfalso
    have h1 : 10 ^ (K + 1) ≤ 10 ^ (Nat.digits 10 n).length :=
      Nat.pow_le_pow_right (by norm_num) h
    rw [pow_succ] at h1
    omega
  · exact h
  · exfalso
    have := halln _ h
    omega

end Plain

/-! ## The history of the outer loop -/

section History

theorem digitPass_on (exp : Int) (n : Nat) (l : List Int) (hn : n ≤ l.length) :
    digitPass exp n l = .ok (passSpecOn (digitAt exp) n l) := by
  have h := digitPass_map (fun x : Int => x) exp n l
  rw [List.map_id' l, digitPassBy_on (fun x : Int => x) exp n l hn] at h
  rw [h]
  simp [Except.map]

theorem digitPass_eq (exp : Int) (l : List Int) :
    digitPass exp l.length l = .ok (passSpec (digitAt exp) l) := by
  rw [digitPass_on exp l.length l (le_refl _), passSpecOn_length]

theorem length_radixState (S : List Int) : ∀ j, (radixState S j).length = S.length
  | 0 => rfl
  | j + 1 => by rw [radixState, length_passSpec, length_radixState S j]

theorem radixState_perm (S : List Int) : ∀ j, (radixState S j).Perm S
  | 0 => List.Perm.refl S
  | j + 1 => by
    rw [radixState]
    exact (passSpec_perm _ _).trans (radixState_perm S j)

theorem digitPass_radixState (S : List Int) (j : Nat) :
    digitPass ((10 : Int) ^ j) S.length (radixState S j) = .ok (radixState S (j + 1)) := by
  have h := digitPass_eq ((10 : Int) ^ j) (radixState S j)
  rw [length_radixState] at h
  rw [h, radixState]

theorem coveredState_zero (n : Nat) (S : List Int) : coveredState n S 0 = S := by
  rw [coveredState, radixState, List.take_append_drop]

theorem coveredState_length (S : List Int) (j : Nat) :
    coveredState S.length S j = radixState S j := by
  rw [coveredState, List.take_length, List.drop_length, List.append_nil]

theorem length_coveredState (n : Nat) (S : List Int) (j : Nat) :
    (coveredState n S j).length = S.length := by
  rw [coveredState, List.length_append, length_radixState, ← List.length_append,
    List.take_append_drop]

theorem coveredState_perm (n : Nat) (S : List Int) (j : Nat) : (coveredState n S j).Perm S := by
  have h := (radixState_perm (S.take n) j).append_right (S.drop n)
  rwa [List.take_append_drop] at h

theorem digitPass_coveredState (n : Nat) (S : List Int) (hn : n ≤ S.length) (j : Nat) :
    digitPass ((10 : Int) ^ j) n (coveredState n S j) = .ok (coveredState n S (j + 1)) := by
  have hlen : (radixState (S.take n) j).length = n := by
    rw [length_radixState, List.length_take]; omega
  rw [digitPass_on _ n _ (by rw [length_coveredState]; exact hn)]
  rw [passSpecOn, coveredState, List.take_left' hlen, List.drop_left' hlen, coveredState,
    radixState]

theorem outerLoopWith_digitPass (max_val : Int) (n : Nat) :
    ∀ (fuel : Nat) (exp : Int) (passes : Nat) (arr : List Int),
      outerLoopWith digitPass max_val n fuel exp passes arr =
        outerLoop max_val n fuel exp passes arr := by
  intro fuel
  induction fuel with
  | zero => intro exp passes arr; rfl
  | succ f ih =>
    intro exp passes arr
    simp only [outerLoopWith, outerLoop]
    by_cases hc : max_val.tdiv exp > 0
    · simp only [hc, if_true]
      cases digitPass exp n arr with
      | error e => rfl
      | ok a =>
        by_cases ho : LLONG_MIN ≤ exp * 10 ∧ exp * 10 ≤ LLONG_MAX
        · simp only [ho, and_self, if_true]; exact ih _ _ _
        · simp [ho]
    · simp [hc]

theorem runWith_digitPass (fuel : Nat) (arr : List Int) :
    Digit_Shift_Sort_runWith digitPass fuel arr = Digit_Shift_Sort_run fuel arr := by
  rw [Digit_Shift_Sort_runWith, Digit_Shift_Sort_run]
  by_cases h : toInt32 arr.length ≤ 1
  · rw [if_pos h, if_pos h]
  · rw [if_neg h, if_neg h]; exact outerLoopWith_digitPass _ _ _ _ _ _

/-- The digit position at which the outer loop exits is determined by `max_val`. -/
theorem exit_unique (m : Int) (K K' : Nat) (hK : m < (10 : Int) ^ K)
    (hall : ∀ j, j < K → (10 : Int) ^ j ≤ m) (hK' : m < (10 : Int) ^ K')
    (hall' : ∀ j, j < K' → (10 : Int) ^ j ≤ m) : K = K' := by
  rcases Nat.lt_trichotomy K K' with h | h | h
  · have := hall' K h; omega
  · exact h
  · have := hall K' h; omega

/-- Loop rule with history: when `pass` acts on the states of the run as the
digit pass with loop bound `n` does, the loop started in the state after `k`
passes ends in the state after `K` passes, where `10 ^ K` is the first power of
ten above `max_val`, and its history lists the passes `k, ..., K - 1`. -/
theorem loopWith_rule (pass : Int → Nat → List Int → Except Fault (List Int))
    (max_val : Int) (n : Nat) (S : List Int) (hmax : max_val ≤ INT_MAX)
    (hpass : ∀ j, (10 : Int) ^ j ≤ max_val →
      pass ((10 : Int) ^ j) n (coveredState n S j) = .ok (coveredState n S (j + 1))) :
    ∀ (fuel k passes : Nat), max_val < (10 : Int) ^ (k + fuel) →
      ∃ K, k ≤ K ∧ max_val < (10 : Int) ^ K ∧
        (∀ j, k ≤ j → j < K → (10 : Int) ^ j ≤ max_val) ∧
        outerLoopWith pass max_val n (fuel + 1) ((10 : Int) ^ k) passes
            (coveredState n S k) =
          .ok ⟨coveredState n S K, (10 : Int) ^ K, passes + (K - k)⟩ ∧
        outerLoopTrace pass max_val n (fuel + 1) ((10 : Int) ^ k) (coveredState n S k) =
          .ok ((List.range' k (K - k)).map
            (fun j => ⟨(10 : Int) ^ j, coveredState n S j, coveredState n S (j + 1)⟩)) := by
  intro fuel
  induction fuel with
  | zero =>
    intro k passes hlt
    have hlt2 : max_val < (10 : Int) ^ k := by simpa using hlt
    have hcond : ¬ max_val.tdiv ((10 : Int) ^ k) > 0 := by
      rw [tdiv_pos_iff _ _ (by positivity)]; omega
    refine ⟨k, le_refl k, hlt2, fun j h1 h2 => by omega, ?_, ?_⟩
    · rw [outerLoopWith, if_neg hcond]; simp
    · rw [outerLoopTrace, if_neg hcond]; simp
  | succ f ih =>
    intro k passes hlt
    by_cases hcond : max_val.tdiv ((10 : Int) ^ k) > 0
    · have hle : (10 : Int) ^ k ≤ max_val := (tdiv_pos_iff _ _ (by positivity)).mp hcond
      have hpos : (0 : Int) < (10 : Int) ^ k := by positivity
      have hov : LLONG_MIN ≤ (10 : Int) ^ k * 10 ∧ (10 : Int) ^ k * 10 ≤ LLONG_MAX := by
        unfold LLONG_MIN LLONG_MAX; unfold INT_MAX at hmax; constructor <;> omega
      obtain ⟨K, hkK, hK, hall, hrun, htr⟩ := ih (k + 1) (passes + 1)
        (by rw [show k + 1 + f = k + (f + 1) by omega]; exact hlt)
      refine ⟨K, by omega, hK, ?_, ?_, ?_⟩
      · intro j h1 h2
        rcases Nat.eq_or_lt_of_le h1 with h | h
        · rw [← h]; exact hle
        · exact hall j h h2
      · rw [outerLoopWith, if_pos hcond, hpass k hle]
        simp only [if_pos hov]
        rw [← pow_succ, hrun, show passes + 1 + (K - (k + 1)) = passes + (K - k) by omega]
      · rw [outerLoopTrace, if_pos hcond, hpass k hle]
        simp only [if_pos hov]
        rw [← pow_succ, htr, show K - k = (K - (k + 1)) + 1 by omega, List.range'_succ]
        simp
    · have hlt2 : max_val < (10 : Int) ^ k := by
        rw [tdiv_pos_iff _ _ (by positivity)] at hcond; omega
      refine ⟨k, le_refl k, hlt2, fun j h1 h2 => by omega, ?_, ?_⟩
      · rw [outerLoopWith, if_neg hcond]; simp
      · rw [outerLoopTrace, if_neg hcond]; simp

/-- The loop rule at the start of a run with fuel for eleven evaluations of the
loop condition. -/
theorem loopWith_start (pass : Int → Nat → List Int → Except Fault (List Int))
    (max_val : Int) (n : Nat) (S : List Int) (hmax : max_val ≤ INT_MAX)
    (hpass : ∀ j, (10 : Int) ^ j ≤ max_val →
      pass ((10 : Int) ^ j) n (coveredState n S j) = .ok (coveredState n S (j + 1)))
    (fuel : Nat) (hfuel : 11 ≤ fuel) :
    ∃ K, K ≤ 10 ∧ max_val < (10 : Int) ^ K ∧ (∀ j, j < K → (10 : Int) ^ j ≤ max_val) ∧
      outerLoopWith pass max_val n fuel 1 0 S =
        .ok ⟨coveredState n S K, (10 : Int) ^ K, K⟩ ∧
      outerLoopTrace pass max_val n fuel 1 S =
        .ok ((List.range' 0 K).map
          (fun j => ⟨(10 : Int) ^ j, coveredState n S j, coveredState n S (j + 1)⟩)) := by
  obtain ⟨f, rfl⟩ : ∃ f, fuel = f + 1 := ⟨fuel - 1, by omega⟩
  have hlt : max_val < (10 : Int) ^ (0 + f) := by
    have h1 : (10 : Int) ^ 10 ≤ (10 : Int) ^ (0 + f) :=
      pow_le_pow_right₀ (by norm_num) (by omega)
    have h2 := pow10_gt_INT_MAX
    omega
  obtain ⟨K, _, hK, hall, hrun, htr⟩ := loopWith_rule pass max_val n S hmax hpass f 0 0 hlt
  have hall' : ∀ j, j < K → (10 : Int) ^ j ≤ max_val := fun j hj => hall j (Nat.zero_le j) hj
  refine ⟨K, passes_le_ten max_val hmax K hall', hK, hall', ?_, ?_⟩
  · rw [coveredState_zero, pow_zero] at hrun
    simpa using hrun
  · rw [coveredState_zero, pow_zero] at htr
    simpa using htr

end History

/-! ## The invariant of the passes -/

section Invariant

theorem radixState_stable (S : List Int) (hS : NonNegInt32 S) :
    ∀ j, StableSortedBy (lowDigits (fun x : Int => x) j) S (radixState S j)
  | 0 => ⟨List.Perm.refl S,
      List.pairwise_of_forall (fun a b => by simp [lowDigits, Nat.mod_one]), fun _ => rfl⟩
  | j + 1 => radix_step (fun x : Int => x) S (radixState S j) j (fun a ha => (hS a ha).1)
      (radixState_stable S hS j)

theorem emod_eq_lowDigits (j : Nat) (x : Int) (hx : 0 ≤ x) :
    x % (10 * (10 : Int) ^ j) = ((lowDigits (fun x : Int => x) (j + 1) x : Nat) : Int) := by
  obtain ⟨n, rfl⟩ := Int.eq_ofNat_of_zero_le hx
  unfold lowDigits
  rw [pow_succ']
  simp

theorem digitAt_of_emod (j : Nat) (a b : Int) (ha : 0 ≤ a) (hb : 0 ≤ b)
    (h : a % (10 * (10 : Int) ^ j) = b % (10 * (10 : Int) ^ j)) :
    digitAt ((10 : Int) ^ j) a = digitAt ((10 : Int) ^ j) b := by
  rw [emod_eq_lowDigits j a ha, emod_eq_lowDigits j b hb] at h
  have h' : lowDigits (fun x : Int => x) (j + 1) a = lowDigits (fun x : Int => x) (j + 1) b := by
    exact_mod_cast h
  rw [digitAt_of_nonneg j a ha, digitAt_of_nonneg j b hb,
    ← lowDigits_succ_div (fun x : Int => x) j a, ← lowDigits_succ_div (fun x : Int => x) j b, h']

/-- The state after the pass at digit position `j` is sorted by the value modulo
`10 * 10 ^ j`, and ties stand as they stood before the pass. -/
theorem radixState_succ_invariant (S : List Int) (hS : NonNegInt32 S) (j : Nat) :
    (radixState S (j + 1)).Pairwise
        (fun a b => a % (10 * (10 : Int) ^ j) ≤ b % (10 * (10 : Int) ^ j)) ∧
      ∀ v : Int,
        (radixState S (j + 1)).filter (fun x => decide (x % (10 * (10 : Int) ^ j) = v)) =
          (radixState S j).filter (fun x => decide (x % (10 * (10 : Int) ^ j) = v)) := by
  have hnn : ∀ i, ∀ a ∈ radixState S i, 0 ≤ a :=
    fun i a ha => (hS a ((radixState_perm S i).subset ha)).1
  constructor
  · refine (radixState_stable S hS (j + 1)).2.1.imp_of_mem (fun {a b} ha hb hab => ?_)
    rw [emod_eq_lowDigits j a (hnn _ a ha), emod_eq_lowDigits j b (hnn _ b hb)]
    exact_mod_cast hab
  · intro v
    rw [radixState]
    exact passSpec_filter _ _ _ (fun a ha b hb hqa hqb =>
      digitAt_of_emod j a b (hnn j a ha) (hnn j b hb)
        ((of_decide_eq_true hqa).trans (of_decide_eq_true hqb).symm))

theorem getLastD_history (n : Nat) (S : List Int) (K : Nat) :
    (((List.range' 0 K).map (fun j =>
      (⟨(10 : Int) ^ j, coveredState n S j, coveredState n S (j + 1)⟩ : PassRecord))).map
        PassRecord.after).getLastD S = coveredState n S K := by
  cases K with
  | zero => rw [coveredState_zero]; rfl
  | succ K =>
    rw [List.range'_concat, List.map_append, List.map_append]
    simp [List.getLastD_concat]

end Invariant

/-! ## Any stable digit pass gives the same run -/

section StablePass

/-- Two lists that are non-decreasing in a key and agree on the elements of
every key value, in order, are equal. -/
theorem stable_unique (k : Int → Int) : ∀ (l₁ l₂ : List Int),
    l₁.Pairwise (fun a b => k a ≤ k b) → l₂.Pairwise (fun a b => k a ≤ k b) →
    (∀ d : Int, l₁.filter (fun x => decide (k x = d)) = l₂.filter (fun x => decide (k x = d))) →
    l₁ = l₂ := by
  intro l₁
  induction l₁ with
  | nil =>
    intro l₂ _ _ hf
    cases l₂ with
    | nil => rfl
    | cons b u =>
      have := hf (k b)
      simp at this
  | cons a t ih =>
    intro l₂ h₁ h₂ hf
    cases l₂ with
    | nil =>
      have := hf (k a)
      simp at this
    | cons b u =>
      have hab : a = b := by
        by_cases hk : k a = k b
        · have := hf (k a)
          simp only [List.filter_cons, decide_True, if_true, hk] at this
          exact (List.cons.inj this).1
        · exfalso
          have ha : a ∈ (b :: u).filter (fun x => decide (k x = k a)) := by
            rw [← hf (k a)]; simp
          have hb : b ∈ (a :: t).filter (fun x => decide (k x = k b)) := by
            rw [hf (k b)]; simp
          have ha' : a ∈ u := by
            rcases List.mem_cons.mp (List.mem_filter.mp ha).1 with h | h
            · exact absurd (by rw [h]) hk
            · exact h
          have hb' : b ∈ t := by
            rcases List.mem_cons.mp (List.mem_filter.mp hb).1 with h | h
            · exact absurd (by rw [h]) hk
            · exact h
          have h1 := List.rel_of_pairwise_cons h₁ hb'
          have h2 := List.rel_of_pairwise_cons h₂ ha'
          exact hk (le_antisymm h1 h2)
      subst hab
      have htail : ∀ d : Int, t.filter (fun x => decide (k x = d)) =
          u.filter (fun x => decide (k x = d)) := by
        intro d
        have := hf d
        by_cases hd : k a = d
        · simp only [List.filter_cons, hd, decide_True, if_true] at this
          exact (List.cons.inj this).2
        · simpa [List.filter_cons, hd] using this
      rw [ih u h₁.of_cons h₂.of_cons htail]

theorem passSpec_isStable (exp : Int) (l : List Int) :
    IsStableDigitSort exp l (passSpec (digitAt exp) l) :=
  ⟨passSpec_perm _ l, passSpec_pairwise _ l, fun d =>
    passSpec_filter _ l _ (fun a _ b _ ha hb => by
      rw [of_decide_eq_true ha, of_decide_eq_true hb])⟩

theorem stable_eq_passSpec (exp : Int) (l out : List Int) (h : IsStableDigitSort exp l out) :
    out = passSpec (digitAt exp) l :=
  stable_unique (digitAt exp) out _ h.2.1 (passSpec_isStable exp l).2.1
    (fun d => (h.2.2 d).trans ((passSpec_isStable exp l).2.2 d).symm)

theorem perm_of_filter_eq (k : Int → Int) (l₁ l₂ : List Int)
    (h : ∀ d : Int, l₁.filter (fun x => decide (k x = d)) =
      l₂.filter (fun x => decide (k x = d))) : l₁.Perm l₂ := by
  rw [List.perm_iff_count]
  intro a
  have h1 : List.count a (l₁.filter (fun x => decide (k x = k a))) = List.count a l₁ :=
    List.count_filter (by simp)
  have h2 : List.count a (l₂.filter (fun x => decide (k x = k a))) = List.count a l₂ :=
    List.count_filter (by simp)
  rw [← h1, ← h2, h (k a)]

theorem buckets_filter (d : Int → Int) (l : List Int) (v : Int) : ∀ m : Nat,
    ((List.range m).flatMap (fun i => l.filter (fun x => decide (d x = (i : Int))))).filter
        (fun x => decide (d x = v)) =
      if 0 ≤ v ∧ v < (m : Int) then l.filter (fun x => decide (d x = v)) else [] := by
  intro m
  induction m with
  | zero =>
    have : ¬ (0 ≤ v ∧ v < ((0 : Nat) : Int)) := by push_cast; omega
    simp [this]
  | succ m ih =>
    rw [List.range_succ, List.flatMap_append, List.filter_append, ih, List.flatMap_singleton,
      List.filter_filter]
    by_cases hv : v = (m : Int)
    · subst hv
      have h1 : ¬ (0 ≤ (m : Int) ∧ (m : Int) < (m : Int)) := by omega
      have h2 : 0 ≤ (m : Int) ∧ (m : Int) < ((m + 1 : Nat) : Int) := by
        constructor <;> push_cast <;> omega
      rw [if_neg h1, if_pos h2]
      simp
    · have h3 : l.filter (fun a => decide (d a = v) && decide (d a = (m : Int))) = [] := by
        rw [List.filter_eq_nil_iff]
        intro a _
        simp only [Bool.and_eq_true, decide_eq_true_eq, not_and]
        intro h1 h2
        exact hv (h1.symm.trans h2)
      rw [h3, List.append_nil]
      by_cases hr : 0 ≤ v ∧ v < (m : Int)
      · have : 0 ≤ v ∧ v < ((m + 1 : Nat) : Int) := by
          constructor
          · exact hr.1
          · push_cast; omega
        rw [if_pos hr, if_pos this]
      · have : ¬ (0 ≤ v ∧ v < ((m + 1 : Nat) : Int)) := by
          push_cast; omega
        rw [if_neg hr, if_neg this]

theorem buckets_pairwise (d : Int → Int) (l : List Int) : ∀ m : Nat,
    ((List.range m).flatMap (fun i => l.filter (fun x => decide (d x = (i : Int))))).Pairwise
      (fun a b => d a ≤ d b) := by
  intro m
  induction m with
  | zero => simp
  | succ m ih =>
    rw [List.range_succ, List.flatMap_append, List.flatMap_singleton, List.pairwise_append]
    refine ⟨ih, ?_, ?_⟩
    · rw [List.pairwise_iff_forall_sublist]
      intro a b hab
      have ha : a ∈ l.filter (fun x => decide (d x = (m : Int))) := hab.subset (by simp)
      have hb : b ∈ l.filter (fun x => decide (d x = (m : Int))) := hab.subset (by simp)
      rw [of_decide_eq_true (List.mem_filter.mp ha).2, of_decide_eq_true (List.mem_filter.mp hb).2]
    · intro a ha b hb
      obtain ⟨i, hi, hai⟩ := List.mem_flatMap.mp ha
      have h1 : d a = (i : Int) := of_decide_eq_true (List.mem_filter.mp hai).2
      have h2 : d b = (m : Int) := of_decide_eq_true (List.mem_filter.mp hb).2
      have h3 : i < m := List.mem_range.mp hi
      rw [h1, h2]
      exact_mod_cast h3.le

/-- The bucket pass is a stable arrangement by the digit on non-negative values. -/
theorem bucketPass_stable (j : Nat) (l : List Int) (hl : NonNegInt32 l) :
    IsStableDigitSort ((10 : Int) ^ j) l (bucketPass ((10 : Int) ^ j) l) := by
  have hfil : ∀ v : Int,
      (bucketPass ((10 : Int) ^ j) l).filter (fun x => decide (digitAt ((10 : Int) ^ j) x = v)) =
        l.filter (fun x => decide (digitAt ((10 : Int) ^ j) x = v)) := by
    intro v
    unfold bucketPass
    rw [buckets_filter]
    by_cases hv : 0 ≤ v ∧ v < ((10 : Nat) : Int)
    · rw [if_pos hv]
    · rw [if_neg hv]
      symm
      rw [List.filter_eq_nil_iff]
      intro a ha
      simp only [decide_eq_true_eq]
      intro h
      apply hv
      rw [← h, digitAt_of_nonneg j a (hl a ha).1]
      constructor
      · exact Int.ofNat_nonneg _
      · exact_mod_cast Nat.mod_lt _ (by norm_num)
  exact ⟨perm_of_filter_eq _ _ _ hfil, buckets_pairwise _ l 10, hfil⟩

end StablePass

/-! ## Overflow and bounds -/

section Safety

theorem shiftLoop_in_bounds (exp cd : Int) : ∀ (k : Nat) (arr : List Int), k < arr.length →
    ∃ out j, shiftLoop exp cd k arr = .ok (out, j) ∧ j ≤ k ∧ out.length = arr.length ∧
      ∀ m, k < m → out[m]? = arr[m]? := by
  intro k
  induction k with
  | zero => intro arr _; exact ⟨arr, 0, by simp [shiftLoop], le_refl 0, rfl, fun _ _ => rfl⟩
  | succ j ih =>
    intro arr hk
    have hj : arr[j]? = some arr[j] := List.getElem?_eq_getElem (by omega)
    by_cases hd : digitAt exp arr[j] > cd
    · obtain ⟨out, j', hrun, hle, hlen, hrest⟩ :=
        ih (arr.set (j + 1) arr[j]) (by rw [List.length_set]; omega)
      refine ⟨out, j', ?_, by omega, by rw [hlen, List.length_set], fun m hm => ?_⟩
      · simp only [shiftLoop, hj, hd, if_true, hk]
        exact hrun
      · rw [hrest m (by omega), List.getElem?_set_ne (by omega)]
    · exact ⟨arr, j + 1, by simp [shiftLoop, hj, hd], le_refl _, rfl, fun _ _ => rfl⟩

theorem insertStep_in_bounds (exp : Int) (arr : List Int) (i : Nat) (hi : i < arr.length) :
    ∃ out, insertStep exp arr i = .ok out ∧ out.length = arr.length ∧
      ∀ m, i < m → out[m]? = arr[m]? := by
  have hget : arr[i]? = some arr[i] := List.getElem?_eq_getElem hi
  obtain ⟨mid, j, hrun, hle, hlen, hrest⟩ :=
    shiftLoop_in_bounds exp (digitAt exp arr[i]) i arr hi
  refine ⟨mid.set j arr[i], ?_, by rw [List.length_set, hlen], fun m hm => ?_⟩
  · simp only [insertStep, hget, hrun]
    rw [if_pos (by omega)]
  · rw [List.getElem?_set_ne (by omega), hrest m hm]

end Safety

/-! ## Runs, and vectors of more than `2 ^ 31 - 1` elements -/

section Runs

theorem early_return (arr : List Int) (h : toInt32 arr.length ≤ 1) (fuel : Nat) :
    Digit_Shift_Sort_run fuel arr = .ok ⟨arr, 1, 0⟩ := by
  rw [Digit_Shift_Sort_run, if_pos h]

/-- A run past the test of line 34, with the digit pass as a parameter: its result
and its history in terms of `coveredState`. -/
theorem run_history (pass : Int → Nat → List Int → Except Fault (List Int)) (S : List Int)
    (hn : ¬ toInt32 S.length ≤ 1) (hmax : get_max S ≤ INT_MAX)
    (hpass : ∀ j, (10 : Int) ^ j ≤ get_max S →
      pass ((10 : Int) ^ j) (toInt32 S.length).toNat
          (coveredState (toInt32 S.length).toNat S j) =
        .ok (coveredState (toInt32 S.length).toNat S (j + 1)))
    (fuel : Nat) (hfuel : 11 ≤ fuel) :
    ∃ K, K ≤ 10 ∧ get_max S < (10 : Int) ^ K ∧ (∀ j, j < K → (10 : Int) ^ j ≤ get_max S) ∧
      Digit_Shift_Sort_runWith pass fuel S =
        .ok ⟨coveredState (toInt32 S.length).toNat S K, (10 : Int) ^ K, K⟩ ∧
      Digit_Shift_Sort_trace pass fuel S =
        .ok ((List.range' 0 K).map (fun j =>
          ⟨(10 : Int) ^ j, coveredState (toInt32 S.length).toNat S j,
            coveredState (toInt32 S.length).toNat S (j + 1)⟩)) := by
  rw [Digit_Shift_Sort_runWith, if_neg hn, Digit_Shift_Sort_trace, if_neg hn]
  exact loopWith_start pass (get_max S) _ S hmax hpass fuel hfuel

theorem get_max_eq (l : List Int) (m : Int) (hm : m ∈ l) (hle : ∀ x ∈ l, x ≤ m) :
    get_max l = m :=
  le_antisymm (hle _ (get_max_mem l (List.ne_nil_of_mem hm))) (le_get_max l m hm)

theorem hugeVector_length : hugeVector.length = 2147483648 := by
  rw [hugeVector, List.length_cons, List.length_cons, List.length_replicate]

theorem toInt32_hugeVector : toInt32 hugeVector.length = -2147483648 := by
  rw [hugeVector_length]; decide

theorem hugeVector_nonneg : NonNegInt32 hugeVector := by
  intro x hx
  rw [hugeVector] at hx
  rcases List.mem_cons.mp hx with h | h
  · rw [h]; decide
  · rcases List.mem_cons.mp h with h | h
    · rw [h]; decide
    · rw [List.eq_of_mem_replicate h]; decide

theorem hugeVector_not_sorted : ¬ hugeVector.Sorted (· ≤ ·) := by
  intro h
  rw [hugeVector] at h
  exact absurd (List.rel_of_sorted_cons h 0 (List.mem_cons_self _ _)) (by decide)

theorem hugeVector_run (fuel : Nat) : Digit_Shift_Sort_run fuel hugeVector = .ok ⟨hugeVector, 1, 0⟩ :=
  early_return hugeVector (by rw [toInt32_hugeVector]; decide) fuel

theorem wrappedVector_length : wrappedVector.length = 4294967298 := by
  rw [wrappedVector, List.length_cons, List.length_cons, List.length_cons, List.length_cons,
    List.length_replicate]

theorem toInt32_wrappedVector : toInt32 wrappedVector.length = 2 := by
  rw [wrappedVector_length]; decide

theorem wrappedVector_mem (x : Int) (hx : x ∈ wrappedVector) : x = 0 ∨ x = 1 := by
  rw [wrappedVector] at hx
  rcases List.mem_cons.mp hx with h | h
  · exact Or.inl h
  · rcases List.mem_cons.mp h with h | h
    · exact Or.inl h
    · rcases List.mem_cons.mp h with h | h
      · exact Or.inr h
      · rcases List.mem_cons.mp h with h | h
        · exact Or.inl h
        · exact Or.inl (List.eq_of_mem_replicate h)

theorem wrappedVector_nonneg : NonNegInt32 wrappedVector := by
  intro x hx
  rcases wrappedVector_mem x hx with h | h
  · rw [h]; decide
  · rw [h]; decide

theorem get_max_wrappedVector : get_max wrappedVector = 1 := by
  apply get_max_eq
  · rw [wrappedVector]
    exact List.mem_cons_of_mem _ (List.mem_cons_of_mem _ (List.mem_cons_self _ _))
  · intro x hx
    rcases wrappedVector_mem x hx with h | h <;> omega

theorem coveredState_wrappedVector (j : Nat) (hj : j ≤ 1) :
    coveredState 2 wrappedVector j = wrappedVector := by
  have htake : wrappedVector.take 2 = [0, 0] := by rw [wrappedVector]; rfl
  have hdrop : [0, 0] ++ wrappedVector.drop 2 = wrappedVector := by
    rw [← htake, List.take_append_drop]
  rw [coveredState, htake]
  rcases Nat.le_one_iff_eq_zero_or_eq_one.mp hj with h | h
  · rw [h, radixState, hdrop]
  · rw [h, radixState, radixState]
    have : passSpec (digitAt ((10 : Int) ^ 0)) [0, 0] = [0, 0] := by decide
    rw [this, hdrop]

/-- The run on `wrappedVector` executes one pass, over the first two elements,
and leaves the vector as it is. -/
theorem wrappedVector_run (fuel : Nat) (hfuel : 11 ≤ fuel) :
    Digit_Shift_Sort_run fuel wrappedVector = .ok ⟨wrappedVector, 10, 1⟩ ∧
      Digit_Shift_Sort_trace digitPass fuel wrappedVector =
        .ok [⟨1, wrappedVector, wrappedVector⟩] := by
  have hn : ¬ toInt32 wrappedVector.length ≤ 1 := by rw [toInt32_wrappedVector]; decide
  have hmax : get_max wrappedVector ≤ INT_MAX := by rw [get_max_wrappedVector]; decide
  have h2 : (toInt32 wrappedVector.length).toNat = 2 := by rw [toInt32_wrappedVector]; rfl
  have hle : 2 ≤ wrappedVector.length := by rw [wrappedVector_length]; decide
  obtain ⟨K, _, hK, hall, hrun, htr⟩ :=
    run_history digitPass wrappedVector hn hmax
      (fun j _ => by rw [h2]; exact digitPass_coveredState 2 wrappedVector hle j) fuel hfuel
  have hK1 : K = 1 := by
    rw [get_max_wrappedVector] at hK hall
    exact exit_unique 1 K 1 hK hall (by norm_num) (fun j hj => by
      have : j = 0 := by omega
      rw [this]; norm_num)
  rw [hK1, h2] at hrun htr
  rw [runWith_digitPass, coveredState_wrappedVector 1 (le_refl 1)] at hrun
  refine ⟨by rw [hrun]; norm_num, ?_⟩
  rw [htr]
  simp only [List.range'_one, List.map_cons, List.map_nil, pow_zero, zero_add,
    coveredState_wrappedVector 0 (Nat.zero_le 1), coveredState_wrappedVector 1 (le_refl 1)]

theorem wrappedVector_not_digit_sorted :
    ¬ wrappedVector.Pairwise (fun a b => digitAt 1 a ≤ digitAt 1 b) := by
  intro h
  rw [wrappedVector] at h
  have h1 := (List.pairwise_cons.mp (List.pairwise_cons.mp (List.pairwise_cons.mp h).2).2).1 0
    (List.mem_cons_self _ _)
  revert h1
  decide

end Runs

/-! ## The specification -/

/-- On a vector of fewer than `2 ^ 31` non-negative `int` values the routine
returns a non-decreasing vector: every element is at most its right neighbour. -/
theorem small_sort_nondecreasing (S : List Int) (hS : NonNegInt32 S)
    (hsize : S.length ≤ 2147483647) (fuel : Nat) (hfuel : 11 ≤ fuel) :
    ∃ result, Digit_Shift_Sort fuel S = .ok result ∧
      ∀ (i : Nat) (h : i + 1 < result.length), result[i] ≤ result[i + 1] := by
  obtain ⟨result, hrun, _, hs⟩ := sort_sorted S hS hsize fuel hfuel
  refine ⟨result, hrun, fun i h => ?_⟩
  exact List.pairwise_iff_getElem.mp hs i (i + 1) (by omega) h (by omega)

/-- C1: the routine is to return every vector of non-negative values in
non-decreasing order, and fails to on `hugeVector`, the `2 ^ 31` values
`1, 0, ..., 0`.  Line 31 narrows the size to `n = -2 ^ 31`, the test `n <= 1` of
line 34 takes the early return, and the vector comes back as it is, its first
element above its second. -/
theorem sort_huge_unsorted :
    NonNegInt32 hugeVector ∧ hugeVector.length = 2147483648 ∧
    toInt32 hugeVector.length = -2147483648 ∧
    (∀ fuel : Nat, Digit_Shift_Sort fuel hugeVector = .ok hugeVector) ∧
    hugeVector[0]? = some 1 ∧ hugeVector[1]? = some 0 :=
  ⟨hugeVector_nonneg, hugeVector_length, toInt32_hugeVector,
    fun fuel => sort_of_run (hugeVector_run fuel),
    by rw [hugeVector, List.getElem?_cons_zero],
    by rw [hugeVector, List.getElem?_cons_succ, List.getElem?_cons_zero]⟩

/-- C2: for every vector `S` of non-negative `int` values the vector returned by
`Digit_Shift_Sort` is a permutation of `S`: it has the same multiset of elements
and the same length. -/
theorem sort_perm (S : List Int) (hS : NonNegInt32 S) (fuel : Nat) (hfuel : 11 ≤ fuel) :
    ∃ result, Digit_Shift_Sort fuel S = .ok result ∧ result.Perm S ∧
      (result : Multiset Int) = (S : Multiset Int) ∧ result.length = S.length := by
  obtain ⟨K, final, hrun, hperm, _⟩ := run_perm S (fun x hx => (hS x hx).2) fuel hfuel
  exact ⟨final, sort_of_run hrun, hperm, Multiset.coe_eq_coe.mpr hperm, hperm.length_eq⟩

/-- Witness of C2 on the vector `[5, 5, 5, 2, 2, 1]`. -/
theorem sort_perm_witness :
    NonNegInt32 [5, 5, 5, 2, 2, 1] ∧ 11 ≤ 11 ∧
    ∃ result, Digit_Shift_Sort 11 [5, 5, 5, 2, 2, 1] = .ok result ∧
      result.Perm [5, 5, 5, 2, 2, 1] ∧
      (result : Multiset Int) = (([5, 5, 5, 2, 2, 1] : List Int) : Multiset Int) ∧
      result.length = ([5, 5, 5, 2, 2, 1] : List Int).length :=
  ⟨by decide, by decide, sort_perm [5, 5, 5, 2, 2, 1] (by decide) 11 (by decide)⟩

/-- On a vector of fewer than `2 ^ 31` non-negative `int` values the routine
returns exactly the vector a reference comparison sort returns, the one ascending
arrangement of the input there is. -/
theorem small_sort_eq_reference (S : List Int) (hS : NonNegInt32 S)
    (hsize : S.length ≤ 2147483647) (fuel : Nat) (hfuel : 11 ≤ fuel) :
    Digit_Shift_Sort fuel S = .ok (reference_sort S) ∧
      ∀ T : List Int, T.Perm S → T.Sorted (· ≤ ·) → Digit_Shift_Sort fuel S = .ok T := by
  obtain ⟨result, hrun, hperm, hs⟩ := sort_sorted S hS hsize fuel hfuel
  have huniq : ∀ T : List Int, T.Perm S → T.Sorted (· ≤ ·) → result = T :=
    fun T hT hTs => List.eq_of_perm_of_sorted (hperm.trans hT.symm) hs hTs
  refine ⟨?_, fun T hT hTs => by rw [hrun, huniq T hT hTs]⟩
  rw [hrun, huniq (reference_sort S) (List.perm_insertionSort _ S)
    (List.sorted_insertionSort _ S)]

/-- C3: the routine is to return what a reference comparison sort returns, and
fails to on `hugeVector`, the `2 ^ 31` values `1, 0, ..., 0`: the early return of
line 35, taken because line 31 narrows the size to a negative `n`, gives the
vector back as it is, and the reference sort does not. -/
theorem sort_huge_ne_reference :
    NonNegInt32 hugeVector ∧ toInt32 hugeVector.length ≤ 1 ∧
    Digit_Shift_Sort 11 hugeVector = .ok hugeVector ∧
    reference_sort hugeVector ≠ hugeVector ∧
    Digit_Shift_Sort 11 hugeVector ≠ .ok (reference_sort hugeVector) := by
  have hne : reference_sort hugeVector ≠ hugeVector := by
    intro h
    have hs := List.sorted_insertionSort (· ≤ ·) hugeVector
    rw [reference_sort] at h
    rw [h] at hs
    exact hugeVector_not_sorted hs
  have hrun := sort_of_run (hugeVector_run 11)
  refine ⟨hugeVector_nonneg, by rw [toInt32_hugeVector]; decide, hrun, hne, ?_⟩
  rw [hrun]
  intro h
  exact hne (Except.ok.inj h).symm

/-- C4: idempotence.  For every vector `S` of non-negative `int` values, sorting
the vector that `Digit_Shift_Sort` returns for `S` returns that same vector. -/
theorem sort_idempotent (S : List Int) (hS : NonNegInt32 S) (fuel : Nat)
    (hfuel : 11 ≤ fuel) :
    ∃ result, Digit_Shift_Sort fuel S = .ok result ∧
      Digit_Shift_Sort fuel result = .ok result := by
  obtain ⟨K, p, hrun, hperm, hs⟩ := run_covered S hS fuel hfuel
  have hc := coveredLength_le S.length
  have hplen : p.length = coveredLength S.length := by
    rw [hperm.length_eq, List.length_take]; omega
  have hRlen : (p ++ S.drop (coveredLength S.length)).length = S.length := by
    rw [List.length_append, List.length_drop, hplen]; omega
  have hR : NonNegInt32 (p ++ S.drop (coveredLength S.length)) := by
    intro x hx
    rcases List.mem_append.mp hx with h | h
    · exact hS x (List.mem_of_mem_take (hperm.subset h))
    · exact hS x (List.mem_of_mem_drop h)
  obtain ⟨K', p', hrun', hperm', hs'⟩ :=
    run_covered (p ++ S.drop (coveredLength S.length)) hR fuel hfuel
  rw [hRlen, List.take_left' hplen] at hperm'
  rw [hRlen, List.drop_left' hplen, List.eq_of_perm_of_sorted hperm' hs' hs] at hrun'
  exact ⟨p ++ S.drop (coveredLength S.length), sort_of_run hrun, sort_of_run hrun'⟩

/-- Witness of C4 on the vector `[100, 10, 1]`. -/
theorem sort_idempotent_witness :
    NonNegInt32 [100, 10, 1] ∧ 11 ≤ 11 ∧
    ∃ result, Digit_Shift_Sort 11 [100, 10, 1] = .ok result ∧
      Digit_Shift_Sort 11 result = .ok result :=
  ⟨by decide, by decide, sort_idempotent [100, 10, 1] (by decide) 11 (by decide)⟩

/-- C5: stability of the whole sort.  Tag every element of a vector `S` of
non-negative `int` values with its index and run the routine on the tagged
elements, keyed on the value.  The tagged run moves the elements exactly as the
plain run moves the values, and of any two elements of equal value in the output
the one that stands first has the smaller original index. -/
theorem sort_stable (S : List Int) (hS : NonNegInt32 S) (fuel : Nat) (hfuel : 11 ≤ fuel) :
    ∃ result : List (Int × Nat),
      Digit_Shift_SortBy Prod.fst fuel (tagged S) = .ok result ∧
      Digit_Shift_Sort fuel S = .ok (result.map Prod.fst) ∧
      ∀ (i j : Nat) (hij : i < j) (hj : j < result.length),
        result[i].1 = result[j].1 → result[i].2 < result[j].2 := by
  have hT : ∀ a ∈ tagged S, 0 ≤ a.1 ∧ a.1 ≤ INT_MAX := by
    intro a ha
    have : a.1 ∈ (tagged S).map Prod.fst := List.mem_map_of_mem _ ha
    rw [tagged_values] at this
    exact hS _ this
  obtain ⟨K, p, hrun, hperm, hpw, hfil⟩ :=
    runBy_stable (Prod.fst : Int × Nat → Int) (tagged S) hT fuel hfuel
  have hsort := sortBy_of_runBy hrun
  refine ⟨p ++ (tagged S).drop (coveredLength (tagged S).length), hsort, ?_, ?_⟩
  · have h := Digit_Shift_Sort_map (Prod.fst : Int × Nat → Int) fuel (tagged S)
    rw [tagged_values, hsort] at h
    exact h
  · have htags : ((tagged S).take (coveredLength (tagged S).length) ++
        (tagged S).drop (coveredLength (tagged S).length)).Pairwise
          (fun a b => a.2 < b.2) := by
      rw [List.take_append_drop]; exact tagged_pairwise S
    obtain ⟨htake, hdrop, hcross⟩ := List.pairwise_append.mp htags
    have hdrop2 : ((tagged S).drop (coveredLength (tagged S).length)).Pairwise
        (fun a b => a.1 = b.1 → a.2 < b.2) := hdrop.imp (fun {a b : Int × Nat} (hab : a.2 < b.2) (_ : a.1 = b.1) => hab)
    have hrel : (p ++ (tagged S).drop (coveredLength (tagged S).length)).Pairwise
        (fun a b => a.1 = b.1 → a.2 < b.2) := by
      rw [List.pairwise_append]
      refine ⟨?_, hdrop2, fun a ha b hb _ => hcross a (hperm.subset ha) b hb⟩
      rw [List.pairwise_iff_forall_sublist]
      intro a b hab heq
      exact rel_of_filter_eq (fun x => decide (x.1.toNat = a.1.toNat)) (hfil a.1.toNat)
        htake hab (by simp) (by simp [heq])
    intro i j hij hj
    exact List.pairwise_iff_getElem.mp hrel i j (by omega) hj hij

/-- Witness of C5 on the vector `[5, 5, 5, 2, 2, 1]`. -/
theorem sort_stable_witness :
    NonNegInt32 [5, 5, 5, 2, 2, 1] ∧ 11 ≤ 11 ∧
    ∃ result : List (Int × Nat),
      Digit_Shift_SortBy Prod.fst 11 (tagged [5, 5, 5, 2, 2, 1]) = .ok result ∧
      Digit_Shift_Sort 11 [5, 5, 5, 2, 2, 1] = .ok (result.map Prod.fst) ∧
      ∀ (i j : Nat) (hij : i < j) (hj : j < result.length),
        result[i].1 = result[j].1 → result[i].2 < result[j].2 :=
  ⟨by decide, by decide, sort_stable [5, 5, 5, 2, 2, 1] (by decide) 11 (by decide)⟩

/-- C6: a vector of length 0 or 1 is returned unchanged, whatever its element
and whatever the fuel: the return of line 35 precedes every loop. -/
theorem sort_short (arr : List Int) (h : arr.length ≤ 1) (fuel : Nat) :
    Digit_Shift_Sort fuel arr = .ok arr := by
  rw [Digit_Shift_Sort, early_return arr (toInt32_le_one _ h) fuel]

/-- Witness of C6: `sort([]) == []` and `sort([5]) == [5]`, and a negative
element alike. -/
theorem sort_short_witness :
    Digit_Shift_Sort 0 [] = .ok [] ∧ Digit_Shift_Sort 0 [5] = .ok [5] ∧
      Digit_Shift_Sort 0 [-7] = .ok [-7] :=
  ⟨sort_short [] (by decide) 0, sort_short [5] (by decide) 0,
    sort_short [-7] (by decide) 0⟩

/-- C7: `get_max` returns `0` on the empty vector; on a non-empty vector it
returns the maximum: an element of the vector that no element exceeds. -/
theorem get_max_spec :
    get_max [] = 0 ∧
      ∀ arr : List Int, arr ≠ [] → get_max arr ∈ arr ∧ ∀ x ∈ arr, x ≤ get_max arr :=
  ⟨rfl, fun arr h => ⟨get_max_mem arr h, le_get_max arr⟩⟩

/-- Witness of C7 on the vector `[3, -9, 12, 4]`. -/
theorem get_max_spec_witness :
    ([3, -9, 12, 4] : List Int) ≠ [] ∧ get_max [3, -9, 12, 4] ∈ [3, -9, 12, 4] ∧
      ∀ x ∈ ([3, -9, 12, 4] : List Int), x ≤ get_max [3, -9, 12, 4] :=
  ⟨by decide, get_max_spec.2 [3, -9, 12, 4] (by decide)⟩

/-- C8, the claim refuted at the vector `[0, 0]`: the maximum is `0`, whose decimal
numeral has one digit, and the outer loop runs no pass. -/
theorem passes_zero_vector :
    Digit_Shift_Sort_run 11 [0, 0] = .ok ⟨[0, 0], 1, 0⟩ ∧ get_max [0, 0] = 0 ∧
      decimalDigitCount (get_max [0, 0]) = 1 :=
  ⟨rfl, rfl, by simp [decimalDigitCount, get_max]⟩

/-- C8 as amended: on a vector of at least two and fewer than `2 ^ 31`
non-negative `int` values the outer loop stops at the first power of ten that
exceeds the maximum, so it runs as many passes as the maximum has decimal digits
when the maximum is not zero, and no pass when the maximum is zero. -/
theorem passes_count (S : List Int) (hlen : 2 ≤ S.length) (hsize : S.length ≤ 2147483647)
    (hS : NonNegInt32 S) (fuel : Nat) (hfuel : 11 ≤ fuel) :
    ∃ r, Digit_Shift_Sort_run fuel S = .ok r ∧
      r.exp = (10 : Int) ^ r.passes ∧ get_max S < r.exp ∧
      (∀ j, j < r.passes → (10 : Int) ^ j ≤ get_max S) ∧
      (get_max S ≠ 0 → r.passes = decimalDigitCount (get_max S)) ∧
      (get_max S = 0 → r.passes = 0) := by
  have hne : S ≠ [] := by rintro rfl; simp at hlen
  have hmem := hS _ (get_max_mem S hne)
  have hn : ¬ toInt32 S.length ≤ 1 := by rw [toInt32_of_le _ hsize]; omega
  obtain ⟨K, final, hrun, hK, hall⟩ := run_stats S hn hmem.2 fuel hfuel
  refine ⟨_, hrun, rfl, hK, hall, fun h0 => ?_, fun h0 => ?_⟩
  · exact passes_eq_digits (get_max S) (by have := hmem.1; omega) K hK hall
  · show K = 0
    by_contra hK0
    have := hall 0 (by omega)
    simp [h0] at this

/-- Witness of C8 as amended on the vector `[170, 45, 75, 90, 802, 24, 2, 66]`. -/
theorem passes_count_witness :
    2 ≤ ([170, 45, 75, 90, 802, 24, 2, 66] : List Int).length ∧
    ([170, 45, 75, 90, 802, 24, 2, 66] : List Int).length ≤ 2147483647 ∧
    NonNegInt32 [170, 45, 75, 90, 802, 24, 2, 66] ∧ 11 ≤ 11 ∧
    ∃ r, Digit_Shift_Sort_run 11 [170, 45, 75, 90, 802, 24, 2, 66] = .ok r ∧
      r.exp = (10 : Int) ^ r.passes ∧ get_max [170, 45, 75, 90, 802, 24, 2, 66] < r.exp ∧
      (∀ j, j < r.passes → (10 : Int) ^ j ≤ get_max [170, 45, 75, 90, 802, 24, 2, 66]) ∧
      (get_max [170, 45, 75, 90, 802, 24, 2, 66] ≠ 0 →
        r.passes = decimalDigitCount (get_max [170, 45, 75, 90, 802, 24, 2, 66])) ∧
      (get_max [170, 45, 75, 90, 802, 24, 2, 66] = 0 → r.passes = 0) :=
  ⟨by decide, by decide, by decide, by decide,
    passes_count [170, 45, 75, 90, 802, 24, 2, 66] (by decide) (by decide) (by decide) 11
      (by decide)⟩

/-- C9: termination.  On every vector of `int` values, of either sign, a run with
fuel for eleven evaluations of the outer loop condition returns a vector: the
outer loop ends after at most ten passes, no `exp *= 10` overflows and no access
leaves the vector.  The backward walk needs no fuel: it recurses on `j + 1`. -/
theorem sort_terminates (arr : List Int) (h32 : ∀ x ∈ arr, IsInt32 x) (fuel : Nat)
    (hfuel : 11 ≤ fuel) :
    ∃ r, Digit_Shift_Sort_run fuel arr = .ok r ∧ r.passes ≤ 10 ∧
      Digit_Shift_Sort fuel arr = .ok r.arr := by
  obtain ⟨K, final, hrun, _, hK⟩ := run_perm arr (fun x hx => (h32 x hx).2) fuel hfuel
  exact ⟨_, hrun, hK, sort_of_run hrun⟩

/-- Witness of C9 on a vector of both signs that holds the two extreme values of
an `int`. -/
theorem sort_terminates_witness :
    (∀ x ∈ ([-2147483648, 2147483647, -20, 5] : List Int), IsInt32 x) ∧ 11 ≤ 11 ∧
    ∃ r, Digit_Shift_Sort_run 11 [-2147483648, 2147483647, -20, 5] = .ok r ∧
      r.passes ≤ 10 ∧ Digit_Shift_Sort 11 [-2147483648, 2147483647, -20, 5] = .ok r.arr :=
  ⟨by decide, by decide,
    sort_terminates [-2147483648, 2147483647, -20, 5] (by decide) 11 (by decide)⟩

/-- A digit pass whose loop bound is the length of the vector is a stable sort by
the digit `(x / exp) % 10`: its output is a permutation of its input and is
non-decreasing in the digit; the elements of each digit value stand in the output
in the order they stand in the input; and when the elements are tagged with their
positions, of two elements of equal digit the one standing first in the output
has the smaller position in the input. -/
theorem full_pass_stable (exp : Int) (arr : List Int) :
    ∃ (out : List Int) (outT : List (Int × Nat)),
      digitPass exp arr.length arr = .ok out ∧ out.Perm arr ∧
      out.Pairwise (fun a b => digitAt exp a ≤ digitAt exp b) ∧
      (∀ d : Int, out.filter (fun x => decide (digitAt exp x = d)) =
        arr.filter (fun x => decide (digitAt exp x = d))) ∧
      digitPassBy Prod.fst exp arr.length (tagged arr) = .ok outT ∧
      outT.map Prod.fst = out ∧
      ∀ (i j : Nat) (hij : i < j) (hj : j < outT.length),
        digitAt exp outT[i].1 = digitAt exp outT[j].1 → outT[i].2 < outT[j].2 := by
  have hT := digitPassBy_eq (Prod.fst : Int × Nat → Int) exp (tagged arr)
  rw [length_tagged] at hT
  have hplain := digitPass_map (Prod.fst : Int × Nat → Int) exp arr.length (tagged arr)
  rw [tagged_values, hT] at hplain
  have hperm := passSpec_perm (fun a : Int × Nat => digitAt exp a.1) (tagged arr)
  have hpw := passSpec_pairwise (fun a : Int × Nat => digitAt exp a.1) (tagged arr)
  have hfil := fun q => passSpec_filter (fun a : Int × Nat => digitAt exp a.1) (tagged arr) q
  refine ⟨_, _, hplain, ?_, ?_, ?_, hT, rfl, ?_⟩
  · have := hperm.map Prod.fst
    rwa [tagged_values] at this
  · rw [List.pairwise_map]; exact hpw
  · intro d
    have h1 := hfil (fun a => decide (digitAt exp a.1 = d))
      (fun a _ b _ ha hb => by rw [of_decide_eq_true ha, of_decide_eq_true hb])
    have h2 := congrArg (List.map Prod.fst) h1
    have harr : arr.filter (fun x => decide (digitAt exp x = d)) =
        ((tagged arr).map Prod.fst).filter (fun x => decide (digitAt exp x = d)) := by
      rw [tagged_values]
    rw [harr, List.filter_map, List.filter_map]
    exact h2
  · have hrel : (passSpec (fun a : Int × Nat => digitAt exp a.1) (tagged arr)).Pairwise
        (fun a b => digitAt exp a.1 = digitAt exp b.1 → a.2 < b.2) := by
      rw [List.pairwise_iff_forall_sublist]
      intro a b hab heq
      exact rel_of_filter_eq (fun x => decide (digitAt exp x.1 = digitAt exp a.1))
        (hfil _ (fun x _ y _ hx hy => by rw [of_decide_eq_true hx, of_decide_eq_true hy]))
        (tagged_pairwise arr) hab (by simp) (by simp [heq])
    intro i j hij hj
    exact List.pairwise_iff_getElem.mp hrel i j (by omega) hj hij

/-- C10: a digit pass is to be a stable sort of the sequence by the digit, and
is not on `wrappedVector`, the `2 ^ 32 + 2` values `0, 0, 1, 0, ..., 0`.  Line 31
narrows the size to `n = 2`; the run executes one pass, at `exp = 1`, which covers
the first two elements only and leaves the vector as it is, with the `1` before
zeros, not non-decreasing in the units digit. -/
theorem pass_wrapped_unsorted :
    NonNegInt32 wrappedVector ∧ wrappedVector.length = 4294967298 ∧
    toInt32 wrappedVector.length = 2 ∧
    Digit_Shift_Sort_trace digitPass 11 wrappedVector =
      .ok [⟨1, wrappedVector, wrappedVector⟩] ∧
    digitPass 1 (toInt32 wrappedVector.length).toNat wrappedVector = .ok wrappedVector ∧
    ¬ wrappedVector.Pairwise (fun a b => digitAt 1 a ≤ digitAt 1 b) := by
  refine ⟨wrappedVector_nonneg, wrappedVector_length, toInt32_wrappedVector,
    (wrappedVector_run 11 (le_refl 11)).2, ?_, wrappedVector_not_digit_sorted⟩
  have h2 : (toInt32 wrappedVector.length).toNat = 2 := by rw [toInt32_wrappedVector]; rfl
  have hle : 2 ≤ wrappedVector.length := by rw [wrappedVector_length]; decide
  have h := digitPass_coveredState 2 wrappedVector hle 0
  rw [coveredState_wrappedVector 0 (Nat.zero_le 1), coveredState_wrappedVector 1 (le_refl 1),
    pow_zero] at h
  rw [h2, h]
/-- On a vector of fewer than `2 ^ 31` non-negative `int` values every executed
pass, at its place value `exp`, leaves the vector sorted non-decreasingly by the
value modulo `10 * exp`, with the elements of every such residue in the order
they had at the start of that pass.  The history has one record per pass of the
run and ends in the returned vector. -/
theorem small_pass_invariant (S : List Int) (hS : NonNegInt32 S)
    (hsize : S.length ≤ 2147483647) (fuel : Nat) (hfuel : 11 ≤ fuel) :
    ∃ history r, Digit_Shift_Sort_trace digitPass fuel S = .ok history ∧
      Digit_Shift_Sort_run fuel S = .ok r ∧ history.length = r.passes ∧
      (history.map PassRecord.after).getLastD S = r.arr ∧
      ∀ p ∈ history,
        digitPass p.exp S.length p.before = .ok p.after ∧
        p.after.Pairwise (fun a b => a % (10 * p.exp) ≤ b % (10 * p.exp)) ∧
        ∀ v : Int, p.after.filter (fun x => decide (x % (10 * p.exp) = v)) =
          p.before.filter (fun x => decide (x % (10 * p.exp) = v)) := by
  by_cases hlen : S.length ≤ 1
  · have hn := toInt32_le_one _ hlen
    refine ⟨[], ⟨S, 1, 0⟩, by rw [Digit_Shift_Sort_trace, if_pos hn],
      early_return S hn fuel, rfl, rfl, fun p hp => by simp at hp⟩
  · have hne : S ≠ [] := by rintro rfl; simp at hlen
    have hn : ¬ toInt32 S.length ≤ 1 := by rw [toInt32_of_le _ hsize]; omega
    have hnat : (toInt32 S.length).toNat = S.length := by
      rw [toInt32_of_le _ hsize]; exact Int.toNat_ofNat _
    obtain ⟨K, _, _, _, hrun, htr⟩ :=
      run_history digitPass S hn (hS _ (get_max_mem S hne)).2
        (fun j _ => digitPass_coveredState _ S (toInt32_toNat_le _) j) fuel hfuel
    rw [runWith_digitPass] at hrun
    rw [hnat] at hrun htr
    refine ⟨_, _, htr, hrun, by simp, getLastD_history S.length S K, fun p hp => ?_⟩
    obtain ⟨j, _, rfl⟩ := List.mem_map.mp hp
    simp only [coveredState_length]
    exact ⟨digitPass_radixState S j, radixState_succ_invariant S hS j⟩

/-- C11: after the pass at place value `exp` the vector is to be sorted by the
value modulo `10 * exp`, and is not on `wrappedVector`, the `2 ^ 32 + 2` values
`0, 0, 1, 0, ..., 0`.  Line 31 narrows the size to `n = 2`; the one pass of the
run, at `exp = 1`, covers the first two elements and the vector it leaves, the
vector returned, still has the `1` before zeros. -/
theorem invariant_wrapped_fails :
    NonNegInt32 wrappedVector ∧
    Digit_Shift_Sort_run 11 wrappedVector = .ok ⟨wrappedVector, 10, 1⟩ ∧
    Digit_Shift_Sort_trace digitPass 11 wrappedVector =
      .ok [⟨1, wrappedVector, wrappedVector⟩] ∧
    ¬ wrappedVector.Pairwise (fun a b => a % (10 * 1) ≤ b % (10 * 1)) := by
  refine ⟨wrappedVector_nonneg, (wrappedVector_run 11 (le_refl 11)).1,
    (wrappedVector_run 11 (le_refl 11)).2, ?_⟩
  intro h
  rw [wrappedVector] at h
  have h1 := (List.pairwise_cons.mp (List.pairwise_cons.mp (List.pairwise_cons.mp h).2).2).1 0
    (List.mem_cons_self _ _)
  revert h1
  decide

/-- On a vector of fewer than `2 ^ 31` non-negative `int` values any stable
per-digit redistribution may stand in for the insertion-shift pass.  Let `pass`
be any function that, on non-negative values and at every power of ten, returns a
stable arrangement of its input by the digit `(x / exp) % 10`.  Then the run with
`pass` in place of the digit pass has the same history, that is the same vector
after every pass, and returns the same state as `Digit_Shift_Sort`, which does
return one. -/
theorem small_stable_pass_same (pass : Int → List Int → List Int)
    (hstable : ∀ (j : Nat) (l : List Int), NonNegInt32 l →
      IsStableDigitSort ((10 : Int) ^ j) l (pass ((10 : Int) ^ j) l))
    (S : List Int) (hS : NonNegInt32 S) (hsize : S.length ≤ 2147483647) (fuel : Nat)
    (hfuel : 11 ≤ fuel) :
    Digit_Shift_Sort_trace (fun exp _ l => .ok (pass exp l)) fuel S =
        Digit_Shift_Sort_trace digitPass fuel S ∧
      Digit_Shift_Sort_runWith (fun exp _ l => .ok (pass exp l)) fuel S =
        Digit_Shift_Sort_run fuel S ∧
      ∃ r, Digit_Shift_Sort_run fuel S = .ok r := by
  by_cases hlen : S.length ≤ 1
  · have hn := toInt32_le_one _ hlen
    rw [Digit_Shift_Sort_trace, Digit_Shift_Sort_trace, Digit_Shift_Sort_runWith,
      Digit_Shift_Sort_run, if_pos hn, if_pos hn, if_pos hn, if_pos hn]
    exact ⟨rfl, rfl, _, rfl⟩
  · have hne : S ≠ [] := by rintro rfl; simp at hlen
    have hmax := (hS _ (get_max_mem S hne)).2
    have hn : ¬ toInt32 S.length ≤ 1 := by rw [toInt32_of_le _ hsize]; omega
    have hnat : (toInt32 S.length).toNat = S.length := by
      rw [toInt32_of_le _ hsize]; exact Int.toNat_ofNat _
    have hstate : ∀ j, NonNegInt32 (radixState S j) :=
      fun j a ha => hS a ((radixState_perm S j).subset ha)
    obtain ⟨K, _, hK, hall, hrun, htr⟩ :=
      run_history digitPass S hn hmax
        (fun j _ => digitPass_coveredState _ S (toInt32_toNat_le _) j) fuel hfuel
    obtain ⟨K', _, hK', hall', hrun', htr'⟩ :=
      run_history (fun exp _ l => .ok (pass exp l)) S hn hmax
        (fun j _ => by
          show Except.ok (pass ((10 : Int) ^ j) (coveredState (toInt32 S.length).toNat S j)) = _
          rw [hnat, coveredState_length, coveredState_length,
            stable_eq_passSpec _ _ _ (hstable j (radixState S j) (hstate j)), radixState])
        fuel hfuel
    have hKK : K' = K := exit_unique (get_max S) K' K hK' hall' hK hall
    rw [hKK] at hrun' htr'
    rw [runWith_digitPass] at hrun
    exact ⟨by rw [htr, htr'], by rw [hrun, hrun'], _, hrun⟩

/-- C12: a stable per-digit redistribution in place of the insertion-shift pass is
to give the same vector after every pass, and does not on `wrappedVector`, the
`2 ^ 32 + 2` values `0, 0, 1, 0, ..., 0`.  Line 31 narrows the size to `n = 2`, so
the insertion-shift pass covers two elements and returns the vector as it is,
while the bucket pass, which is stable on non-negative values, arranges the whole
vector. -/
theorem stable_pass_wrapped_differs :
    NonNegInt32 wrappedVector ∧
    (∀ (j : Nat) (l : List Int), NonNegInt32 l →
      IsStableDigitSort ((10 : Int) ^ j) l (bucketPass ((10 : Int) ^ j) l)) ∧
    Digit_Shift_Sort_run 11 wrappedVector = .ok ⟨wrappedVector, 10, 1⟩ ∧
    Digit_Shift_Sort_runWith (fun exp _ l => .ok (bucketPass exp l)) 11 wrappedVector =
      .ok ⟨bucketPass 1 wrappedVector, 10, 1⟩ ∧
    bucketPass 1 wrappedVector ≠ wrappedVector := by
  have hne : bucketPass 1 wrappedVector ≠ wrappedVector := by
    intro h
    have hs := buckets_pairwise (digitAt 1) wrappedVector 10
    rw [← bucketPass, h] at hs
    exact wrappedVector_not_digit_sorted hs
  refine ⟨wrappedVector_nonneg, bucketPass_stable, (wrappedVector_run 11 (le_refl 11)).1,
    ?_, hne⟩
  have hn : ¬ toInt32 wrappedVector.length ≤ 1 := by rw [toInt32_wrappedVector]; decide
  have h1 : (1 : Int).tdiv 1 > 0 := by decide
  have h10 : ¬ (1 : Int).tdiv (1 * 10) > 0 := by decide
  have hov : LLONG_MIN ≤ (1 : Int) * 10 ∧ (1 : Int) * 10 ≤ LLONG_MAX := by decide
  rw [Digit_Shift_Sort_runWith, if_neg hn, get_max_wrappedVector, outerLoopWith, if_pos h1]
  simp only [if_pos hov]
  rw [outerLoopWith, if_neg h10]
  norm_num

/-- C13: a 64-bit `exp` does not overflow.  For every `max_val` that fits a C++
`int` the outer loop runs to its exit without a fault: it executes at most ten
passes, every pass runs at a place value whose tenfold is at most `10 ^ 10`, the
final `exp` is at most `10 ^ 10`, and `10 ^ 10` is below `2 ^ 63`. -/
theorem exp_no_overflow (max_val : Int) (h32 : IsInt32 max_val) (arr : List Int)
    (fuel : Nat) (hfuel : 11 ≤ fuel) :
    ∃ r history, outerLoop max_val arr.length fuel 1 0 arr = .ok r ∧
      outerLoopTrace digitPass max_val arr.length fuel 1 arr = .ok history ∧
      history.length = r.passes ∧ r.passes ≤ 10 ∧ r.exp = (10 : Int) ^ r.passes ∧
      r.exp ≤ (10 : Int) ^ 10 ∧
      (∀ p ∈ history, 1 ≤ p.exp ∧ p.exp * 10 ≤ (10 : Int) ^ 10) ∧
      (10 : Int) ^ 10 < (2 : Int) ^ 63 ∧ LLONG_MAX = (2 : Int) ^ 63 - 1 := by
  obtain ⟨K, hK10, _, _, hrun, htr⟩ :=
    loopWith_start digitPass max_val arr.length arr h32.2
      (fun j _ => digitPass_coveredState arr.length arr (le_refl _) j) fuel hfuel
  rw [outerLoopWith_digitPass] at hrun
  have hpow : ∀ j, j ≤ 10 → (10 : Int) ^ j ≤ (10 : Int) ^ 10 :=
    fun j hj => pow_le_pow_right₀ (by norm_num) hj
  refine ⟨_, _, hrun, htr, by simp, hK10, rfl, hpow K hK10, ?_, by norm_num,
    by unfold LLONG_MAX; norm_num⟩
  intro p hp
  obtain ⟨j, hj, rfl⟩ := List.mem_map.mp hp
  have hjK : j < K := by
    have := List.mem_range'_1.mp hj
    omega
  refine ⟨one_le_pow₀ (by norm_num), ?_⟩
  show (10 : Int) ^ j * 10 ≤ (10 : Int) ^ 10
  rw [← pow_succ]
  exact hpow (j + 1) (by omega)

/-- Witness of C13 at the largest `int`, the maximum of `[2147483647, 0]`. -/
theorem exp_no_overflow_witness :
    IsInt32 2147483647 ∧ 11 ≤ 11 ∧
    ∃ r history,
      outerLoop 2147483647 ([2147483647, 0] : List Int).length 11 1 0 [2147483647, 0] = .ok r ∧
      outerLoopTrace digitPass 2147483647 ([2147483647, 0] : List Int).length 11 1
        [2147483647, 0] = .ok history ∧
      history.length = r.passes ∧ r.passes ≤ 10 ∧ r.exp = (10 : Int) ^ r.passes ∧
      r.exp ≤ (10 : Int) ^ 10 ∧
      (∀ p ∈ history, 1 ≤ p.exp ∧ p.exp * 10 ≤ (10 : Int) ^ 10) ∧
      (10 : Int) ^ 10 < (2 : Int) ^ 63 ∧ LLONG_MAX = (2 : Int) ^ 63 - 1 :=
  ⟨by decide, by decide, exp_no_overflow 2147483647 (by decide) [2147483647, 0] 11 (by decide)⟩

/-- C14: every access of a digit pass is in bounds.  On every vector, hence on
every vector of length `n ≥ 2`, the insertion step at every index `i` with
`1 ≤ i < n` and the backward walk from every index below `n` return without the
bounds fault, keep the length, and leave the positions beyond their starting
index as they were; the whole pass returns without a fault. -/
theorem pass_in_bounds (exp : Int) (arr : List Int) :
    (∀ i, 1 ≤ i → i < arr.length →
      ∃ out, insertStep exp arr i = .ok out ∧ out.length = arr.length ∧
        ∀ m, i < m → out[m]? = arr[m]?) ∧
    (∀ (cd : Int) (k : Nat), k < arr.length →
      ∃ out j, shiftLoop exp cd k arr = .ok (out, j) ∧ j ≤ k ∧ out.length = arr.length ∧
        ∀ m, k < m → out[m]? = arr[m]?) ∧
    ∃ out, digitPass exp arr.length arr = .ok out ∧ out.length = arr.length :=
  ⟨fun i _ hi => insertStep_in_bounds exp arr i hi,
    fun cd k hk => shiftLoop_in_bounds exp cd k arr hk,
    ⟨_, digitPass_eq exp arr, length_passSpec _ arr⟩⟩

/-- Witness of C14 on the vector `[170, 45, 75, 90]` at the units digit. -/
theorem pass_in_bounds_witness :
    (∀ i, 1 ≤ i → i < ([170, 45, 75, 90] : List Int).length →
      ∃ out, insertStep 1 [170, 45, 75, 90] i = .ok out ∧
        out.length = ([170, 45, 75, 90] : List Int).length ∧
        ∀ m, i < m → out[m]? = ([170, 45, 75, 90] : List Int)[m]?) ∧
    (∀ (cd : Int) (k : Nat), k < ([170, 45, 75, 90] : List Int).length →
      ∃ out j, shiftLoop 1 cd k [170, 45, 75, 90] = .ok (out, j) ∧ j ≤ k ∧
        out.length = ([170, 45, 75, 90] : List Int).length ∧
        ∀ m, k < m → out[m]? = ([170, 45, 75, 90] : List Int)[m]?) ∧
    ∃ out, digitPass 1 ([170, 45, 75, 90] : List Int).length [170, 45, 75, 90] = .ok out ∧
      out.length = ([170, 45, 75, 90] : List Int).length :=
  pass_in_bounds 1 [170, 45, 75, 90]

/-- C15: when no element exceeds zero, the maximum is at most zero, the loop
condition `max_val / exp > 0` fails at `exp = 1`, no pass runs, and the vector is
returned exactly as given. -/
theorem sort_max_nonpos (arr : List Int) (h : ∀ x ∈ arr, x ≤ 0) (fuel : Nat)
    (hfuel : 1 ≤ fuel) :
    get_max arr ≤ 0 ∧ Digit_Shift_Sort_run fuel arr = .ok ⟨arr, 1, 0⟩ ∧
      Digit_Shift_Sort fuel arr = .ok arr := by
  have hmax : get_max arr ≤ 0 := by
    cases arr with
    | nil => simp [get_max]
    | cons a t => exact h _ (get_max_mem (a :: t) (by simp))
  have hrun : Digit_Shift_Sort_run fuel arr = .ok ⟨arr, 1, 0⟩ := by
    by_cases hn : toInt32 arr.length ≤ 1
    · exact early_return arr hn fuel
    · obtain ⟨f, rfl⟩ : ∃ f, fuel = f + 1 := ⟨fuel - 1, by omega⟩
      have hcond : ¬ (get_max arr).tdiv 1 > 0 := by
        rw [tdiv_pos_iff _ _ (by norm_num)]; omega
      rw [Digit_Shift_Sort_run, if_neg hn, outerLoop, if_neg hcond]
  exact ⟨hmax, hrun, sort_of_run hrun⟩

/-- Witness of C15 on an all-negative vector that is not in ascending order. -/
theorem sort_max_nonpos_witness :
    (∀ x ∈ ([-1, -2, 0, -7] : List Int), x ≤ 0) ∧ 1 ≤ 1 ∧
    get_max [-1, -2, 0, -7] ≤ 0 ∧
    Digit_Shift_Sort_run 1 [-1, -2, 0, -7] = .ok ⟨[-1, -2, 0, -7], 1, 0⟩ ∧
    Digit_Shift_Sort 1 [-1, -2, 0, -7] = .ok [-1, -2, 0, -7] :=
  ⟨by decide, by decide, sort_max_nonpos [-1, -2, 0, -7] (by decide) 1 (by decide)⟩

/-- C16: outside the non-negative precondition the routine does not sort.  The
vector `[-1, -2]` is returned as it is, and `[-20, -1, 5]` is returned as
`[-1, -20, 5]`; neither output is non-decreasing. -/
theorem sort_negative_unsorted :
    (Digit_Shift_Sort 11 [-1, -2] = .ok [-1, -2] ∧
      ¬ ([-1, -2] : List Int).Sorted (· ≤ ·)) ∧
    (Digit_Shift_Sort 11 [-20, -1, 5] = .ok [-1, -20, 5] ∧
      ¬ ([-1, -20, 5] : List Int).Sorted (· ≤ ·)) :=
  ⟨⟨rfl, by decide⟩, ⟨rfl, by decide⟩⟩

/-- C17: on every vector of `int` values, of either sign, the routine returns a
permutation of its input: no element is lost, duplicated or altered. -/
theorem perm_any_sign (arr : List Int) (h32 : ∀ x ∈ arr, IsInt32 x) (fuel : Nat)
    (hfuel : 11 ≤ fuel) :
    ∃ out, Digit_Shift_Sort fuel arr = .ok out ∧ out.Perm arr ∧
      out.length = arr.length := by
  obtain ⟨K, final, hrun, hperm, _⟩ := run_perm arr (fun x hx => (h32 x hx).2) fuel hfuel
  exact ⟨final, sort_of_run hrun, hperm, hperm.length_eq⟩

/-- Witness of C17 on a vector of both signs. -/
theorem perm_any_sign_witness :
    (∀ x ∈ ([-20, -1, 5, -2147483648, 2147483647] : List Int), IsInt32 x) ∧ 11 ≤ 11 ∧
    ∃ out, Digit_Shift_Sort 11 [-20, -1, 5, -2147483648, 2147483647] = .ok out ∧
      out.Perm [-20, -1, 5, -2147483648, 2147483647] ∧
      out.length = ([-20, -1, 5, -2147483648, 2147483647] : List Int).length :=
  ⟨by decide, by decide,
    perm_any_sign [-20, -1, 5, -2147483648, 2147483647] (by decide) 11 (by decide)⟩
end DigitShiftSort
